import Mathlib

/-!
Verification development for the contour-rs isoline/isoband library.

The Rust sources under `src/` (grid.rs, isoringbuilder.rs, contourbuilder.rs)
are shallowly embedded below.  Sample values (the generic `V: GridValue`) are
modelled as rationals `ℚ`: every coordinate that the marching-squares engine
produces is an exact multiple of 1/2, so the `f64` arithmetic of the original
is exact and `ℚ` is a faithful carrier.  Machine integers (`i64`, `usize`)
are modelled as `ℤ` and `ℕ`.  Fallible Rust functions returning
`Result<T>` are modelled as `Except ErrorKind T`; a Rust panic (out-of-bounds
slice index) is modelled by an outer `Option` where noted.

`FxHashMap<usize, usize>` is modelled as an association list with
overwrite-on-insert semantics (each key occurs at most once), and
`Slab<Fragment>` as an id-keyed association list together with a fresh-id
counter: the slab only needs stable distinct ids for live entries, which the
counter provides.
-/

attribute [local semireducible] Rat.add Rat.mul Rat.sub Rat.inv

instance {ε α : Type} [DecidableEq ε] [DecidableEq α] :
    DecidableEq (Except ε α) := fun a b =>
  match a, b with
  | .ok x, .ok y =>
    if h : x = y then isTrue (by rw [h]) else isFalse (by simp [h])
  | .error x, .error y =>
    if h : x = y then isTrue (by rw [h]) else isFalse (by simp [h])
  | .ok _, .error _ => isFalse (by simp)
  | .error _, .ok _ => isFalse (by simp)

namespace CR

/-- A point produced by the stitcher: fractional grid coordinates (`Pt` in lib.rs). -/
abbrev Pt : Type := ℚ × ℚ

/-- A ring: ordered list of points (`Ring` in lib.rs). -/
abbrev Ring : Type := List Pt

/-- Modelled from the spec: `ErrorKind` lives in src/error.rs which is not part
of the provided sources.  Spec §7 lists the kinds: `BadDimension` (grid
constructor size mismatch), `BadCast` (sample not representable in double
precision during smoothing), `Unexpected` (internal stitching bookkeeping
violation, or `isobands` called with fewer than 2 thresholds). -/
inductive ErrorKind : Type where
  | BadDimension : ErrorKind
  | BadCast : ErrorKind
  | Unexpected : ErrorKind
deriving DecidableEq, Repr

/-- An inclusive rectangle of grid coordinates (grid.rs `Extent`). -/
structure Extent : Type where
  top_left : ℤ × ℤ
  bottom_right : ℤ × ℤ
deriving DecidableEq, Repr

/-- The `Grid<V>` capability (grid.rs): `size`, `get_point` and `extents`,
with `V = ℚ` and the extent iterator materialised as a list. -/
structure GridQ : Type where
  size : ℕ × ℕ
  get_point : ℤ × ℤ → Option ℚ
  extents : List Extent

/-- The flat `Buffer` grid (grid.rs lines 44-69) as a `GridQ`:
one extent padded one cell on every side, lookups outside `[0,w)×[0,h)`
return `none`. -/
def bufferGrid (data : List ℚ) (width height : ℕ) : GridQ where
  size := (width + 2, height + 2)
  get_point := fun c =>
    if c.1 < 0 ∨ c.2 < 0 ∨ (width : ℤ) ≤ c.1 ∨ (height : ℤ) ≤ c.2 then none
    else data.get? (c.2.toNat * width + c.1.toNat)
  extents := [⟨(-1, -1), ((width : ℤ), (height : ℤ))⟩]

/-- The `TiledBuffer<TILE_SIZE, V>` grid (grid.rs lines 71-212); the const
generic `TILE_SIZE` becomes the field `tile_size`, `V = ℚ`.  `width` and
`height` are measured in tiles. -/
structure TiledBufferS : Type where
  tile_size : ℕ
  tiles : List (List ℚ)
  width : ℕ
  height : ℕ
deriving DecidableEq, Repr

/-- `TiledBuffer::new` (grid.rs lines 80-86): `width * height` empty tiles. -/
def TiledBufferS.new (tile_size width height : ℕ) : TiledBufferS :=
  ⟨tile_size, List.replicate (width * height) [], width, height⟩

/-- `TiledBuffer::set_tile` (grid.rs lines 88-95).  The bounds check of the
source is `x > self.width || y > self.height` (strict `>`); when it passes,
the source writes `self.tiles[y * self.width + x] = data`, which panics if
the index is out of range.  The panic is modelled as the outer `none`. -/
def TiledBufferS.set_tile (tb : TiledBufferS) (x y : ℕ) (data : List ℚ) :
    Option (Except ErrorKind TiledBufferS) :=
  if data.length ≠ tb.tile_size * tb.tile_size ∨ tb.width < x ∨ tb.height < y then
    some (.error .BadDimension)
  else if y * tb.width + x < tb.tiles.length then
    some (.ok { tb with tiles := tb.tiles.set (y * tb.width + x) data })
  else
    none

/-- `TiledBuffer::has_tile` (grid.rs lines 97-106). -/
def TiledBufferS.has_tile (tb : TiledBufferS) (x y : ℤ) : Bool :=
  if x < 0 ∨ y < 0 ∨ (tb.width : ℤ) ≤ x ∨ (tb.height : ℤ) ≤ y then
    false
  else
    match tb.tiles.get? (y.toNat * tb.width + x.toNat) with
    | some v => !v.isEmpty
    | none => false

/-- `TiledBuffer::extents` (grid.rs lines 124-192): per populated tile, the
base extent 0, the left/top border and corner extents 1-4 unconditionally,
and the right/bottom extents 5-8 guarded by `has_tile` of the neighbor in
that direction, exactly as the source writes the conditions. -/
def TiledBufferS.extents (tb : TiledBufferS) : List Extent :=
  (tb.tiles.enum).flatMap (fun p =>
    let idx := p.1
    let v := p.2
    if !v.isEmpty then
      let t_y : ℤ := ((idx / tb.width : ℕ) : ℤ)
      let t_x : ℤ := ((idx % tb.width : ℕ) : ℤ)
      let t_s : ℤ := (tb.tile_size : ℤ)
      let top_left : ℤ × ℤ := (t_x * t_s, t_y * t_s)
      let bottom_right : ℤ × ℤ := ((t_x + 1) * t_s - 1, (t_y + 1) * t_s - 1)
      [ Extent.mk top_left bottom_right,
        Extent.mk (top_left.1 - 1, bottom_right.2) (top_left.1, bottom_right.2 + 1),
        Extent.mk (top_left.1 - 1, top_left.2) (top_left.1, bottom_right.2),
        Extent.mk (top_left.1 - 1, top_left.2 - 1) top_left,
        Extent.mk (top_left.1, top_left.2 - 1) (bottom_right.1, top_left.2) ]
      ++ (if tb.has_tile (t_x + 1) (t_y - 1) then
            [Extent.mk (bottom_right.1, top_left.2 - 1) (bottom_right.1 + 1, top_left.2)]
          else [])
      ++ (if tb.has_tile (t_x + 1) t_y then
            [Extent.mk (bottom_right.1, top_left.2) (bottom_right.1 + 1, bottom_right.2)]
          else [])
      ++ (if tb.has_tile (t_x + 1) (t_y + 1) then
            [Extent.mk bottom_right (bottom_right.1 + 1, bottom_right.2 + 1)]
          else [])
      ++ (if tb.has_tile t_x (t_y + 1) then
            [Extent.mk (top_left.1, bottom_right.2) (bottom_right.1, bottom_right.2 + 1)]
          else [])
    else [])

/-- `TiledBuffer::get_point` (grid.rs lines 198-211). -/
def TiledBufferS.get_point (tb : TiledBufferS) (c : ℤ × ℤ) : Option ℚ :=
  if c.1 < 0 ∨ c.2 < 0 then none
  else
    let t_x := c.1.toNat / tb.tile_size
    let t_y := c.2.toNat / tb.tile_size
    if tb.width ≤ t_x ∨ tb.height ≤ t_y then none
    else
      let rel_x := c.1.toNat % tb.tile_size
      let rel_y := c.2.toNat % tb.tile_size
      match tb.tiles.get? (t_y * tb.width + t_x) with
      | some tile => tile.get? (rel_y * tb.tile_size + rel_x)
      | none => none

/-- The `Grid` view of a `TiledBuffer` (grid.rs lines 109-212). -/
def tiledGrid (tb : TiledBufferS) : GridQ where
  size := (tb.width * tb.tile_size + 2, tb.height * tb.tile_size + 2)
  get_point := tb.get_point
  extents := tb.extents

/-- The marching-squares case table (isoringbuilder.rs lines 11-37).  Each
entry of `CASES[code]` is one segment, given as (start point, end point) in
the normalized 2×2 cell space; the source stores a segment as
`vec![vec![x0, y0], vec![x1, y1]]`. -/
def CASES : List (List (Pt × Pt)) :=
  [ [],
    [((1, 3/2), (1/2, 1))],
    [((3/2, 1), (1, 3/2))],
    [((3/2, 1), (1/2, 1))],
    [((1, 1/2), (3/2, 1))],
    [((1, 3/2), (1/2, 1)), ((1, 1/2), (3/2, 1))],
    [((1, 1/2), (1, 3/2))],
    [((1, 1/2), (1/2, 1))],
    [((1/2, 1), (1, 1/2))],
    [((1, 3/2), (1, 1/2))],
    [((1/2, 1), (1, 1/2)), ((3/2, 1), (1, 3/2))],
    [((3/2, 1), (1, 1/2))],
    [((1/2, 1), (3/2, 1))],
    [((1, 3/2), (3/2, 1))],
    [((1/2, 1), (1, 3/2))],
    [] ]

/-- An in-progress open ring (isoringbuilder.rs `Fragment`); the source field
names are `start` and `end` (quantized endpoint keys), renamed `fstart` and
`fend` because `end` is a Lean keyword. -/
structure Fragment : Type where
  fstart : ℕ
  fend : ℕ
  ring : Ring
deriving DecidableEq, Repr

/-- Removes the binding for key `k` from an association list. -/
def aErase {β : Type} : List (ℕ × β) → ℕ → List (ℕ × β)
  | [], _ => []
  | p :: t, k => if p.1 = k then aErase t k else p :: aErase t k

/-- Inserts binding `k ↦ v`, overwriting any previous binding of `k`
(the semantics of `HashMap::insert` / in-place slab slot update). -/
def aInsert {β : Type} (l : List (ℕ × β)) (k : ℕ) (v : β) : List (ℕ × β) :=
  (k, v) :: aErase l k

/-- Looks up the binding of key `k` (the semantics of `HashMap::get` /
`Slab` slot access on the association-list model). -/
def aLookup {β : Type} : List (ℕ × β) → ℕ → Option β
  | [], _ => none
  | p :: t, k => if p.1 = k then some p.2 else aLookup t k

/-- The stitching engine state (isoringbuilder.rs `IsoRingBuilder`).
`nextId` replaces the slab's internal slot allocator: it hands out an id that
is distinct from every live id, which is the only property the source relies
on (`f_ix == g_ix` comparisons and map-to-slab lookups). -/
structure IsoRingBuilderS : Type where
  fragment_by_start : List (ℕ × ℕ)
  fragment_by_end : List (ℕ × ℕ)
  f : List (ℕ × Fragment)
  nextId : ℕ
  is_empty : Bool
deriving DecidableEq, Repr

/-- A fresh builder (`IsoRingBuilder::new`, isoringbuilder.rs lines 76-83). -/
def freshB : IsoRingBuilderS := ⟨[], [], [], 0, true⟩

/-- `IsoRingBuilder::clear` (isoringbuilder.rs lines 262-267): empties the
slab and both key maps and marks the builder empty. -/
def clearB (st : IsoRingBuilderS) : IsoRingBuilderS :=
  { fragment_by_start := [], fragment_by_end := [], f := [], nextId := 0,
    is_empty := true }

/-- The quantized endpoint key (isoringbuilder.rs lines 149-151):
`(point.x * 2.0 + point.y * ((width + 2) * 4) as f64) as usize`.
The `as usize` cast truncates toward zero and clamps negatives to 0, which
`Int.toNat ∘ Rat.floor` reproduces for the values that occur. -/
def indexKey (width : ℕ) (point : Pt) : ℕ :=
  (Rat.floor (point.1 * 2 + point.2 * (((width + 2) * 4 : ℕ) : ℚ))).toNat

/-- One call of `IsoRingBuilder::stitch` (isoringbuilder.rs lines 154-260).
`line` is a raw case-table segment, `(x, y)` the cell position; the state and
the emitted-rings accumulator are threaded explicitly in place of `&mut`.
The source's `contains_key` checks followed by `remove(..).ok_or(Unexpected)`
/ `get_mut(..).ok_or(Unexpected)` are modelled by matching on the lookup,
with the impossible arm returning `ErrorKind.Unexpected`; `Slab::remove` on a
vacant slot panics in Rust and is likewise modelled as `Unexpected` (both
arms are unreachable). -/
def stitch (width : ℕ) (line : Pt × Pt) (x y : ℤ)
    (acc : IsoRingBuilderS × List Ring) :
    Except ErrorKind (IsoRingBuilderS × List Ring) :=
  let st := acc.1
  let result := acc.2
  let start : Pt := (line.1.1 + (x : ℚ), line.1.2 + (y : ℚ))
  let stop : Pt := (line.2.1 + (x : ℚ), line.2.2 + (y : ℚ))
  let start_index := indexKey width start
  let end_index := indexKey width stop
  if (aLookup st.fragment_by_end start_index).isSome then
    if (aLookup st.fragment_by_start end_index).isSome then
      match aLookup st.fragment_by_end start_index,
            aLookup st.fragment_by_start end_index with
      | some f_ix, some g_ix =>
        let st1 := { st with
          fragment_by_end := aErase st.fragment_by_end start_index,
          fragment_by_start := aErase st.fragment_by_start end_index }
        if f_ix = g_ix then
          match aLookup st1.f f_ix with
          | some f =>
            .ok ({ st1 with f := aErase st1.f f_ix },
                 result ++ [f.ring ++ [stop]])
          | none => .error .Unexpected
        else
          match aLookup st1.f f_ix, aLookup st1.f g_ix with
          | some f, some g =>
            let st2 := { st1 with f := aErase (aErase st1.f f_ix) g_ix }
            let ix := st2.nextId
            .ok ({ st2 with
                     f := aInsert st2.f ix ⟨f.fstart, g.fend, f.ring ++ g.ring⟩,
                     nextId := st2.nextId + 1,
                     fragment_by_start := aInsert st2.fragment_by_start f.fstart ix,
                     fragment_by_end := aInsert st2.fragment_by_end g.fend ix },
                 result)
          | _, _ => .error .Unexpected
      | _, _ => .error .Unexpected
    else
      match aLookup st.fragment_by_end start_index with
      | some f_ix =>
        let st1 := { st with
          fragment_by_end := aErase st.fragment_by_end start_index }
        match aLookup st1.f f_ix with
        | some f =>
          .ok ({ st1 with
                   f := aInsert st1.f f_ix ⟨f.fstart, end_index, f.ring ++ [stop]⟩,
                   fragment_by_end := aInsert st1.fragment_by_end end_index f_ix },
               result)
        | none => .error .Unexpected
      | none => .error .Unexpected
  else
    if (aLookup st.fragment_by_start end_index).isSome then
      if (aLookup st.fragment_by_end start_index).isSome then
        -- this arm is dead in the source as well: the enclosing `else` has
        -- already established that `fragment_by_end` lacks `start_index`
        match aLookup st.fragment_by_start end_index,
              aLookup st.fragment_by_end start_index with
        | some f_ix, some g_ix =>
          let st1 := { st with
            fragment_by_start := aErase st.fragment_by_start end_index,
            fragment_by_end := aErase st.fragment_by_end start_index }
          if f_ix = g_ix then
            match aLookup st1.f f_ix with
            | some f =>
              .ok ({ st1 with f := aErase st1.f f_ix },
                   result ++ [f.ring ++ [stop]])
            | none => .error .Unexpected
          else
            match aLookup st1.f f_ix, aLookup st1.f g_ix with
            | some f, some g =>
              let st2 := { st1 with f := aErase (aErase st1.f f_ix) g_ix }
              let ix := st2.nextId
              .ok ({ st2 with
                       f := aInsert st2.f ix ⟨g.fstart, f.fend, g.ring ++ f.ring⟩,
                       nextId := st2.nextId + 1,
                       fragment_by_start := aInsert st2.fragment_by_start g.fstart ix,
                       fragment_by_end := aInsert st2.fragment_by_end f.fend ix },
                   result)
            | _, _ => .error .Unexpected
        | _, _ => .error .Unexpected
      else
        match aLookup st.fragment_by_start end_index with
        | some f_ix =>
          let st1 := { st with
            fragment_by_start := aErase st.fragment_by_start end_index }
          match aLookup st1.f f_ix with
          | some f =>
            .ok ({ st1 with
                     f := aInsert st1.f f_ix ⟨start_index, f.fend, start :: f.ring⟩,
                     fragment_by_start :=
                       aInsert st1.fragment_by_start start_index f_ix },
                 result)
          | none => .error .Unexpected
        | none => .error .Unexpected
    else
      let ix := st.nextId
      .ok ({ st with
               f := aInsert st.f ix ⟨start_index, end_index, [start, stop]⟩,
               nextId := st.nextId + 1,
               fragment_by_start := aInsert st.fragment_by_start start_index ix,
               fragment_by_end := aInsert st.fragment_by_end end_index ix },
           result)

/-- The thresholded corner bit `(v >= threshold) as usize`
(isoringbuilder.rs lines 121-135). -/
def cornerBit (g : GridQ) (threshold : ℚ) (c : ℤ × ℤ) : Option ℕ :=
  (g.get_point c).map (fun v => if threshold ≤ v then 1 else 0)

/-- One cell window of the `compute` scan (isoringbuilder.rs lines 129-142):
read the four corners, skip the window unless all are present, otherwise feed
every case-table segment for the 4-bit code to `stitch` (the `case_stitch!`
macro collects the stitch results, which a fold in the `Except` monad
reproduces).  The source carries `t0`/`t3` over from the previous column;
`get_point` is pure, so fresh lookups yield the same values. -/
def windowStep (g : GridQ) (threshold : ℚ) (width : ℕ) (x y : ℤ)
    (acc : IsoRingBuilderS × List Ring) :
    Except ErrorKind (IsoRingBuilderS × List Ring) :=
  let t3 := cornerBit g threshold (x - 1, y - 1)
  let t0 := cornerBit g threshold (x - 1, y)
  let t2 := cornerBit g threshold (x, y - 1)
  let t1 := cornerBit g threshold (x, y)
  match t0, t1, t2, t3 with
  | some t0, some t1, some t2, some t3 =>
      (CASES.getD (t0 ||| t1 <<< 1 ||| t2 <<< 2 ||| t3 <<< 3) []).foldlM
        (fun acc line => stitch width line x y acc) acc
  | _, _, _, _ => .ok acc

/-- The inclusive integer range `a..=b` of a Rust `for` loop. -/
def rangeII (a b : ℤ) : List ℤ :=
  (List.range (b + 1 - a).toNat).map (fun i => a + (i : ℤ))

/-- The scan of one extent (isoringbuilder.rs lines 113-143): rows
`top_left.y ..= bottom_right.y + 1`, columns `top_left.x ..= bottom_right.x + 1`. -/
def scanExtent (g : GridQ) (threshold : ℚ) (width : ℕ)
    (acc : IsoRingBuilderS × List Ring) (e : Extent) :
    Except ErrorKind (IsoRingBuilderS × List Ring) :=
  (rangeII e.top_left.2 (e.bottom_right.2 + 1)).foldlM
    (fun acc y =>
      (rangeII e.top_left.1 (e.bottom_right.1 + 1)).foldlM
        (fun acc x => windowStep g threshold width x y acc) acc)
    acc

/-- `IsoRingBuilder::compute` (isoringbuilder.rs lines 92-147): clear the
state if it was used, scan every extent, return the emitted rings and the
final builder (the source mutates the builder through `&mut self`). -/
def compute (g : GridQ) (threshold : ℚ) (st0 : IsoRingBuilderS) :
    Except ErrorKind (List Ring × IsoRingBuilderS) :=
  let width := g.size.1
  let st := if st0.is_empty = false then clearB st0 else st0
  (g.extents.foldlM (scanExtent g threshold width) (st, [])).map
    (fun acc => (acc.2, { acc.1 with is_empty := false }))

/-- `contour_rings` (isoringbuilder.rs lines 57-60): run `compute` on a fresh
builder and return only the rings. -/
def contour_rings (g : GridQ) (threshold : ℚ) : Except ErrorKind (List Ring) :=
  (compute g threshold freshB).map Prod.fst

/-- Modelled from the spec: `area` lives in src/area.rs which is not part of
the provided sources.  Spec §4.4: rings are classified "by signed area:
positive ⇒ exterior polygon boundary"; the d3-style doubled signed area over
the cyclic edge pairs (preceded by the closing edge) realises this with
positive values on the rings the stitcher emits for exteriors. -/
def area (ring : Ring) : ℚ :=
  match ring with
  | [] => 0
  | p0 :: _ =>
    ((ring.getLastD p0 :: ring).zip ring).foldl
      (fun s pq => s + (pq.1.2 * pq.2.1 - pq.1.1 * pq.2.2)) 0

/-- Whether `p` lies on the closed segment from `a` to `b` (collinear and
inside the bounding box); used by the modelled point-in-polygon test. -/
def onSegment (a b p : Pt) : Bool :=
  (b.1 - a.1) * (p.2 - a.2) = (b.2 - a.2) * (p.1 - a.1)
    ∧ min a.1 b.1 ≤ p.1 ∧ p.1 ≤ max a.1 b.1
    ∧ min a.2 b.2 ≤ p.2 ∧ p.2 ≤ max a.2 b.2

/-- Whether the edge `(a, b)` crosses the leftward horizontal ray from `p`
(even-odd rule). -/
def edgeCrosses (a b p : Pt) : Bool :=
  ((a.2 ≤ p.2 ∧ p.2 < b.2) ∨ (b.2 ≤ p.2 ∧ p.2 < a.2))
    ∧ (p.1 - a.1) * (b.2 - a.2) < (b.1 - a.1) * (p.2 - a.2) ∧ a.2 < b.2
    ∨ ((a.2 ≤ p.2 ∧ p.2 < b.2) ∨ (b.2 ≤ p.2 ∧ p.2 < a.2))
    ∧ (b.1 - a.1) * (p.2 - a.2) < (p.1 - a.1) * (b.2 - a.2) ∧ b.2 < a.2

/-- Walks the edge list accumulating even-odd parity; a point on an edge
short-circuits to the boundary answer 0. -/
def ringContainsAux (p : Pt) : List (Pt × Pt) → Bool → ℤ
  | [], inside => if inside then 1 else -1
  | e :: es, inside =>
    if onSegment e.1 e.2 p then 0
    else ringContainsAux p es (xor inside (edgeCrosses e.1 e.2 p))

/-- Modelled from the spec: `ring_contains` of src/area.rs (missing from the
sources).  A point-in-polygon test over the ring's cyclic edges returning
1 (inside), 0 (on the boundary) or -1 (outside). -/
def ringContainsPoint (ring : Ring) (p : Pt) : ℤ :=
  match ring with
  | [] => -1
  | p0 :: _ => ringContainsAux p ((ring.getLastD p0 :: ring).zip ring) false

/-- Modelled from the spec: `contains` of src/area.rs (missing from the
sources).  Spec §4.4: "a ring A contains ring B if a representative-vertex
(or full-vertex) point-in-polygon test classifies B as inside A's boundary;
returns a non-contained sentinel otherwise" — the first vertex of B with a
non-boundary classification decides, `-1` is the non-contained sentinel. -/
def containsR (ring : Ring) : List Pt → ℤ
  | [] => 0
  | p :: ps =>
    let c := ringContainsPoint ring p
    if c ≠ 0 then c else containsR ring ps

/-- A polygon with an exterior ring and interior (hole) rings
(`geo_types::Polygon` restricted to what the library constructs). -/
structure PolygonQ : Type where
  exterior : Ring
  interiors : List Ring
deriving DecidableEq, Repr

/-- Attaches one hole ring to the first polygon (in list order) whose
exterior contains it, leaving the rest unchanged; if no polygon contains it
the hole is dropped.  This is the loop body shared by `ContourBuilder::contour`
(contourbuilder.rs lines 220-227) and `ContourBuilder::isobands`
(contourbuilder.rs lines 337-344). -/
def attachOne : List PolygonQ → Ring → List PolygonQ
  | [], _ => []
  | p :: rest, hole =>
    if containsR p.exterior hole ≠ -1 then
      { p with interiors := p.interiors ++ [hole] } :: rest
    else
      p :: attachOne rest hole

/-- Attaches every hole in order: the hole-assignment stage of `contour`
and `isobands`. -/
def attachHoles (polygons : List PolygonQ) (holes : List Ring) : List PolygonQ :=
  holes.foldl attachOne polygons

/-- `ContourBuilder` configuration (contourbuilder.rs lines 16-48). -/
structure ContourBuilderS : Type where
  smooth : Bool
  x_origin : ℚ
  y_origin : ℚ
  x_step : ℚ
  y_step : ℚ
deriving DecidableEq, Repr

/-- `ContourBuilder::new` (contourbuilder.rs lines 40-48). -/
def ContourBuilderS.new (smooth : Bool) : ContourBuilderS := ⟨smooth, 0, 0, 1, 1⟩

/-- Truncation toward zero, the behavior of Rust's `f64::trunc` + `as i64`. -/
def truncQ (q : ℚ) : ℤ := if q < 0 then -Int.floor (-q) else Int.floor q

/-- `f64::EPSILON` = 2⁻⁵². -/
def epsQ : ℚ := 1 / 2 ^ 52

/-- `num_traits::cast::<V, f64>` with `V` modelled as `ℚ`: the cast is exact
and never fails (the `BadCast` arm of the source is unreachable for `f64`
samples). -/
def castV (v : ℚ) : Except ErrorKind ℚ := .ok v

/-- `ContourBuilder::smooth_linear` (contourbuilder.rs lines 74-111): shifts
each ring point lying exactly on an interior cell boundary along an axis by
linear interpolation between the bracketing samples.  The division is exact
in `ℚ`; the source's `f64` division can produce non-finite values when the
bracketing samples are equal, which `ℚ` cannot represent — no claim touches
that corner. -/
def smooth_linear (b : ContourBuilderS) (ring : Ring) (g : GridQ) (value : ℚ) :
    Except ErrorKind Ring :=
  let dx := g.size.1
  let dy := g.size.2
  ring.mapM (fun point => do
    let x := point.1
    let y := point.2
    let xt := truncQ x
    let yt := truncQ y
    match g.get_point (xt, yt) with
    | some v1 => do
        let px ←
          if 0 < x ∧ x < (dx : ℚ) ∧ |(xt : ℚ) - x| < epsQ then
            match g.get_point (xt - 1, yt) with
            | some v0 => do
                let cv ← castV value
                let c0 ← castV v0
                let c1 ← castV v1
                pure (x + (cv - c0) / (c1 - c0) - 1/2)
            | none => pure x
          else pure x
        let py ←
          if 0 < y ∧ y < (dy : ℚ) ∧ |(yt : ℚ) - y| < epsQ then
            match g.get_point (xt, yt - 1) with
            | some v0 => do
                let cv ← castV value
                let c0 ← castV v0
                let c1 ← castV v1
                pure (y + (cv - c0) / (c1 - c0) - 1/2)
            | none => pure y
          else pure y
        pure ((px, py) : Pt)
    | none => pure point)

/-- The affine output map of `line` / `contour` / `isobands` (contourbuilder.rs
lines 149-156, 203-210, 272-279): applied only when origin or step differ
from the defaults. -/
def transformRing (b : ContourBuilderS) (ring : Ring) : Ring :=
  if (b.x_origin, b.y_origin) ≠ ((0 : ℚ), (0 : ℚ))
      ∨ (b.x_step, b.y_step) ≠ ((1 : ℚ), (1 : ℚ)) then
    ring.map (fun p => (p.1 * b.x_step + b.x_origin, p.2 * b.y_step + b.y_origin))
  else ring

/-- A per-threshold isoline result (`Line` of lib.rs: a multi-line plus the
threshold). -/
structure LineT : Type where
  geometry : List Ring
  threshold : ℚ
deriving DecidableEq, Repr

/-- A per-threshold contour result (`Contour` of lib.rs). -/
structure ContourT : Type where
  geometry : List PolygonQ
  threshold : ℚ
deriving DecidableEq, Repr

/-- A per-threshold-pair isoband result (`Band` of lib.rs). -/
structure BandQ : Type where
  geometry : List PolygonQ
  min_v : ℚ
  max_v : ℚ
deriving DecidableEq, Repr

/-- `ContourBuilder::line` (contourbuilder.rs lines 134-165): one threshold,
reusing the caller's stitching builder. -/
def line (b : ContourBuilderS) (g : GridQ) (threshold : ℚ)
    (st : IsoRingBuilderS) : Except ErrorKind (LineT × IsoRingBuilderS) := do
  let (result, st') ← compute g threshold st
  let linestrings ← result.foldlM (fun ls ring => do
      let ring ← if b.smooth then smooth_linear b ring g threshold else pure ring
      let ring := transformRing b ring
      pure (ls ++ [ring])) []
  pure (⟨linestrings, threshold⟩, st')

/-- The sequential traversal of `ContourBuilder::lines` (contourbuilder.rs
lines 122-132): `thresholds.iter().map(..).collect::<Result<Vec<_>>>()`
evaluates the thresholds in order against the shared builder and
short-circuits at the first error. -/
def linesAux (b : ContourBuilderS) (g : GridQ) :
    List ℚ → IsoRingBuilderS → Except ErrorKind (List LineT)
  | [], _ => .ok []
  | t :: ts, st => do
      let (l, st') ← line b g t st
      let rest ← linesAux b g ts st'
      pure (l :: rest)

/-- `ContourBuilder::lines`. -/
def lines (b : ContourBuilderS) (g : GridQ) (thresholds : List ℚ) :
    Except ErrorKind (List LineT) :=
  linesAux b g thresholds freshB

/-- `ContourBuilder::contour` (contourbuilder.rs lines 188-233): one
threshold; rings with positive area become polygons, the rest holes, and the
holes are attached to the first containing polygon in scan order. -/
def contour (b : ContourBuilderS) (g : GridQ) (threshold : ℚ)
    (st : IsoRingBuilderS) : Except ErrorKind (ContourT × IsoRingBuilderS) := do
  let (result, st') ← compute g threshold st
  let cls ← result.foldlM (fun (acc : List PolygonQ × List Ring) ring => do
      let ring ← if b.smooth then smooth_linear b ring g threshold else pure ring
      let ring := transformRing b ring
      if 0 < area ring then
        pure (acc.1 ++ [PolygonQ.mk ring []], acc.2)
      else
        pure (acc.1, acc.2 ++ [ring])) ([], [])
  pure (⟨attachHoles cls.1 cls.2, threshold⟩, st')

/-- The sequential traversal of `ContourBuilder::contours` (contourbuilder.rs
lines 176-186). -/
def contoursAux (b : ContourBuilderS) (g : GridQ) :
    List ℚ → IsoRingBuilderS → Except ErrorKind (List ContourT)
  | [], _ => .ok []
  | t :: ts, st => do
      let (c, st') ← contour b g t st
      let rest ← contoursAux b g ts st'
      pure (c :: rest)

/-- `ContourBuilder::contours`. -/
def contours (b : ContourBuilderS) (g : GridQ) (thresholds : List ℚ) :
    Except ErrorKind (List ContourT) :=
  contoursAux b g thresholds freshB

/-- Rust `Vec::dedup`: removes consecutive duplicate points. -/
def dedupQ : List Pt → List Pt
  | [] => []
  | [a] => [a]
  | a :: b :: l => if a = b then dedupQ (b :: l) else a :: dedupQ (b :: l)

/-- The per-threshold ring stage of `ContourBuilder::isobands`
(contourbuilder.rs lines 258-286): per threshold, compute the rings, smooth
if configured, remove consecutive duplicates, apply the affine map, and keep
only rings longer than 3 points (the source filters the `Result` iterator
before collecting, which changes nothing for the collected value). -/
def isobandsRingStep (b : ContourBuilderS) (g : GridQ) (t : ℚ)
    (st : IsoRingBuilderS) :
    Except ErrorKind ((List Ring × ℚ) × IsoRingBuilderS) := do
  let (rings, st') ← compute g t st
  let processed ← rings.mapM (fun ring => do
      let ring ← if b.smooth then smooth_linear b ring g t else pure ring
      let ring := dedupQ ring
      let ring := transformRing b ring
      pure ring)
  let kept := processed.filter (fun r => 3 < r.length)
  pure ((kept, t), st')

def isobandsRings (b : ContourBuilderS) (g : GridQ) :
    List ℚ → IsoRingBuilderS →
    Except ErrorKind (List (List Ring × ℚ) × IsoRingBuilderS)
  | [], st => .ok ([], st)
  | t :: ts, st => do
      let (p, st') ← isobandsRingStep b g t st
      let (rest, st'') ← isobandsRings b g ts st'
      pure (p :: rest, st'')

/-- The `sort_by_key` key of the isoband ring sort (contourbuilder.rs line
310): `area.abs() as u64`, i.e. the integer-truncated absolute area. -/
def bandKey (p : Ring × ℚ) : ℕ := (Rat.floor |p.2|).toNat

/-- The band-reconstruction stage of `ContourBuilder::isobands`
(contourbuilder.rs lines 301-346): pair each ring with its area, stable-sort
by the truncated absolute area (Rust's `sort_by_key` is a stable sort;
`List.insertionSort` on the non-strict key order is also stable, and a stable
sort's output is determined by the key order, so the two agree), count for each ring the other rings containing it using
the `enclosed_by_n` map, split by parity of the count into exteriors and
interior rings, attach interior rings to the first containing exterior, and
reverse the polygon list. -/
def assembleBand (rings : List Ring) : List PolygonQ :=
  let rings_and_area := rings.map (fun ring => (ring, area ring))
  let sorted := rings_and_area.insertionSort (fun a b => bandKey a ≤ bandKey b)
  let enclosed_by_n := sorted.enum.foldl (fun m p =>
      aInsert m p.1
        ((sorted.enum.filter
            (fun q => q.1 ≠ p.1 ∧ containsR q.2.1 p.2.1 ≠ -1)).length)) []
  let split := sorted.enum.foldl (fun (acc : List PolygonQ × List Ring) p =>
      if ((aLookup enclosed_by_n p.1).getD 0) % 2 = 0 then
        (acc.1 ++ [PolygonQ.mk p.2.1 []], acc.2)
      else
        (acc.1, acc.2 ++ [p.2.1])) ([], [])
  (attachHoles split.1 split.2).reverse

/-- `ContourBuilder::isobands` (contourbuilder.rs lines 245-356): fewer than
two thresholds is `Unexpected`; otherwise run the ring stage and assemble one
band per consecutive threshold pair from the concatenated ring sets
(`rings.windows(2)` is the zip of the list with its tail). -/
def isobands (b : ContourBuilderS) (g : GridQ) (thresholds : List ℚ) :
    Except ErrorKind (List BandQ) :=
  if thresholds.length < 2 then .error .Unexpected
  else do
    let (rs, _) ← isobandsRings b g thresholds freshB
    let bpairs := (rs.zip rs.tail).map (fun p => (p.1.1 ++ p.2.1, p.1.2, p.2.2))
    pure (bpairs.map (fun t => BandQ.mk (assembleBand t.1) t.2.1 t.2.2))

/-- Follows the words of claim C4 (the refinement target, not the source):
compute each ring's absolute signed area, sort ascending by the
integer-truncated absolute area, count for every ring how many other rings
contain it, classify even counts as top-level exteriors and odd counts as
holes attached to the first containing exterior in sorted order, and reverse
the exterior polygon list. -/
def specAssemble (rings : List Ring) : List PolygonQ :=
  let withArea := rings.map (fun ring => (ring, area ring))
  let sorted := withArea.insertionSort
    (fun a b => (Rat.floor |a.2|).toNat ≤ (Rat.floor |b.2|).toNat)
  let countOf := fun (p : ℕ × (Ring × ℚ)) =>
    (sorted.enum.filter (fun q => q.1 ≠ p.1 ∧ containsR q.2.1 p.2.1 ≠ -1)).length
  let exteriors :=
    (sorted.enum.filter (fun p => countOf p % 2 = 0)).map
      (fun p => PolygonQ.mk p.2.1 [])
  let holes :=
    (sorted.enum.filter (fun p => ¬ countOf p % 2 = 0)).map (fun p => p.2.1)
  (attachHoles exteriors holes).reverse

/-! ### Specification-side definitions for the stitching invariant -/

/-- The absolute segments the case table yields at cell window `(x, y)`:
the same data `windowStep` feeds to `stitch`, with the cell offset applied. -/
def windowSegs (g : GridQ) (threshold : ℚ) (x y : ℤ) : List (Pt × Pt) :=
  match cornerBit g threshold (x - 1, y), cornerBit g threshold (x, y),
        cornerBit g threshold (x, y - 1), cornerBit g threshold (x - 1, y - 1) with
  | some t0, some t1, some t2, some t3 =>
      (CASES.getD (t0 ||| t1 <<< 1 ||| t2 <<< 2 ||| t3 <<< 3) []).map
        (fun s => ((s.1.1 + (x : ℚ), s.1.2 + (y : ℚ)),
                   (s.2.1 + (x : ℚ), s.2.2 + (y : ℚ))))
  | _, _, _, _ => []

/-- A directed segment the scan of `g` at `threshold` can emit (at any cell). -/
def GoodSeg (g : GridQ) (threshold : ℚ) (a b : Pt) : Prop :=
  ∃ x y : ℤ, (a, b) ∈ windowSegs g threshold x y

/-- A point is safe when both coordinates are half-integers in the range that
makes the quantized `indexKey` injective: `2·px ∈ [3, 2·width − 3]` and
`2·py ≥ 3`. -/
def SafePt (width : ℕ) (p : Pt) : Prop :=
  ∃ m n : ℤ, p.1 = (m : ℚ) / 2 ∧ p.2 = (n : ℚ) / 2
    ∧ 3 ≤ m ∧ m + 3 ≤ 2 * (width : ℤ) ∧ 3 ≤ n

/-- Every `get_point` hit lies inside the grid's own size bounds with a
two-cell margin: `0 ≤ x ≤ size.1 − 3` and `0 ≤ y`.  The library's grids
(`Buffer`, `TiledBuffer`, `NoDataMask` over either) all satisfy this. -/
def DomBounded (g : GridQ) : Prop :=
  ∀ c v, g.get_point c = some v → 0 ≤ c.1 ∧ c.1 + 3 ≤ (g.size.1 : ℤ) ∧ 0 ≤ c.2

/-- The invariant of one live fragment: at least two points, consecutive
points joined by emittable segments, all points safe, and the quantized keys
of the first and last point stored in `fstart` / `fend`. -/
def FragOK (g : GridQ) (threshold : ℚ) (width : ℕ) (F : Fragment) : Prop :=
  2 ≤ F.ring.length
  ∧ F.ring.Chain' (GoodSeg g threshold)
  ∧ (∀ p ∈ F.ring, SafePt width p)
  ∧ (∀ p, F.ring.head? = some p → F.fstart = indexKey width p)
  ∧ (∀ p, F.ring.getLast? = some p → F.fend = indexKey width p)

/-- The invariant of the builder state: every slab entry is a sound fragment
with an id below the allocator counter, and every key-map binding points to a
live slab entry whose corresponding key field matches. -/
def InvB (g : GridQ) (threshold : ℚ) (width : ℕ) (st : IsoRingBuilderS) : Prop :=
  (∀ id F, aLookup st.f id = some F → FragOK g threshold width F ∧ id < st.nextId)
  ∧ (∀ k id, aLookup st.fragment_by_start k = some id →
      ∃ F, aLookup st.f id = some F ∧ F.fstart = k)
  ∧ (∀ k id, aLookup st.fragment_by_end k = some id →
      ∃ F, aLookup st.f id = some F ∧ F.fend = k)

/-- What holds of every ring the engine emits: closed (first point equals
last), chained along emittable segments, and at least three points long. -/
def RingOK (g : GridQ) (threshold : ℚ) (r : Ring) : Prop :=
  r.head? = r.getLast? ∧ r.Chain' (GoodSeg g threshold) ∧ 3 ≤ r.length

/-- The invariant carried through the scan folds. -/
def StateOK (g : GridQ) (threshold : ℚ) (width : ℕ)
    (acc : IsoRingBuilderS × List Ring) : Prop :=
  InvB g threshold width acc.1 ∧ ∀ r ∈ acc.2, RingOK g threshold r

/-- The error result of a sequential per-threshold batch is the error of the
first failing threshold: every earlier threshold's call succeeded (threading
the shared stitching builder) and the call for this threshold failed with
exactly that error. -/
def FailsAtFirst {α : Type}
    (step : ℚ → IsoRingBuilderS → Except ErrorKind (α × IsoRingBuilderS)) :
    List ℚ → IsoRingBuilderS → ErrorKind → Prop
  | [], _, _ => False
  | t :: ts, st, e =>
      step t st = .error e
      ∨ ∃ a st', step t st = .ok (a, st') ∧ FailsAtFirst step ts st' e

/-! ## Theorems -/

/-! ### Association-list and fold lemmas -/

theorem aLookup_aErase {β : Type} (l : List (ℕ × β)) (k k' : ℕ) :
    aLookup (aErase l k) k' = if k' = k then none else aLookup l k' := by
  induction l with
  | nil => simp [aErase, aLookup]
  | cons a t ih =>
    by_cases hk : a.1 = k
    · rw [aErase, if_pos hk, ih]
      rcases eq_or_ne k' k with h | h
      · simp [h]
      · have : ¬ a.1 = k' := fun hh => h ((hh.symm.trans hk).symm ▸ rfl)
        simp [h, aLookup, this]
    · rw [aErase, if_neg hk, aLookup, aLookup]
      rcases eq_or_ne a.1 k' with h | h
      · have hk' : ¬ k' = k := fun hh => hk (h.symm ▸ hh ▸ rfl)
        simp [h, hk']
      · simp only [h, if_false]
        exact ih

theorem aLookup_aInsert {β : Type} (l : List (ℕ × β)) (k : ℕ) (v : β) (k' : ℕ) :
    aLookup (aInsert l k v) k' = if k' = k then some v else aLookup l k' := by
  rw [aInsert, aLookup]
  rcases eq_or_ne k k' with h | h
  · simp [h]
  · have h' : ¬ k' = k := fun hh => h (hh ▸ rfl)
    simp [h, h', aLookup_aErase]

theorem aLookup_isSome_iff {β : Type} (l : List (ℕ × β)) (k : ℕ) :
    (aLookup l k).isSome = true ↔ ∃ v, aLookup l k = some v := by
  cases h : aLookup l k <;> simp [Option.isSome]

/-- An invariant preserved by every step of a fold in the `Except` monad is
preserved by the whole fold. -/
theorem foldlM_except_inv {α σ ε : Type} (step : σ → α → Except ε σ)
    (P : σ → Prop) (l : List α)
    (H : ∀ a ∈ l, ∀ s, P s → ∀ s', step s a = .ok s' → P s') :
    ∀ s s', P s → l.foldlM step s = .ok s' → P s' := by
  induction l with
  | nil =>
    intro s s' hP hf
    simp only [List.foldlM_nil, pure, Except.pure] at hf
    cases hf
    exact hP
  | cons a t ih =>
    intro s s' hP hf
    rw [List.foldlM_cons] at hf
    cases hstep : step s a with
    | error e =>
      rw [hstep] at hf
      simp only [bind, Except.bind] at hf
      cases hf
    | ok s1 =>
      rw [hstep] at hf
      simp only [bind, Except.bind] at hf
      exact ih (fun b hb => H b (List.mem_cons_of_mem a hb))
        s1 s' (H a (List.mem_cons_self a t) s hP s1 hstep) hf

/-! ### Case-table facts -/

theorem cases_seg_ne : ∀ L ∈ CASES, ∀ s ∈ L, s.1 ≠ s.2 := by decide

theorem cases_no_reverse_pair :
    ∀ L ∈ CASES, ∀ s ∈ L, ∀ t ∈ L, ¬(s.1 = t.2 ∧ s.2 = t.1) := by decide

theorem cases_offsets :
    ∀ L ∈ CASES, ∀ s ∈ L,
      (s.1.1 = 1/2 ∨ s.1.1 = 1 ∨ s.1.1 = 3/2)
      ∧ (s.1.2 = 1/2 ∨ s.1.2 = 1 ∨ s.1.2 = 3/2)
      ∧ (s.2.1 = 1/2 ∨ s.2.1 = 1 ∨ s.2.1 = 3/2)
      ∧ (s.2.2 = 1/2 ∨ s.2.2 = 1 ∨ s.2.2 = 3/2) := by decide

/-- The rigidity of the case-table offsets: if two (possibly equal) segments
of the table fit together reversed after integral translations of both
coordinates, the translation is zero. -/
theorem cases_rigid :
    ∀ L₁ ∈ CASES, ∀ L₂ ∈ CASES, ∀ s ∈ L₁, ∀ t ∈ L₂,
      s.1.1 - t.2.1 = s.2.1 - t.1.1 → s.1.2 - t.2.2 = s.2.2 - t.1.2 →
      (s.1.1 - t.2.1).den = 1 → (s.1.2 - t.2.2).den = 1 →
      s.1 = t.2 ∧ s.2 = t.1 := by decide

theorem cases_getD_mem (c : ℕ) :
    CASES.getD c [] = [] ∨ CASES.getD c [] ∈ CASES := by
  by_cases h : c < CASES.length
  · right
    rw [List.getD_eq_getElem?_getD, List.getElem?_eq_getElem h]
    exact List.getElem_mem h
  · left
    rw [List.getD_eq_getElem?_getD, List.getElem?_eq_none (le_of_not_lt h)]
    rfl

/-! ### Emittable-segment facts -/

/-- Every window's segment list is a case-table entry shifted by the cell
coordinates (or empty). -/
theorem windowSegs_eq (g : GridQ) (threshold : ℚ) (x y : ℤ) :
    ∃ L, (L = [] ∨ L ∈ CASES) ∧
      windowSegs g threshold x y = L.map
        (fun s => ((s.1.1 + (x : ℚ), s.1.2 + (y : ℚ)),
                   (s.2.1 + (x : ℚ), s.2.2 + (y : ℚ)))) := by
  unfold windowSegs
  cases cornerBit g threshold (x - 1, y) with
  | none => exact ⟨[], Or.inl rfl, rfl⟩
  | some t0 =>
  cases cornerBit g threshold (x, y) with
  | none => exact ⟨[], Or.inl rfl, rfl⟩
  | some t1 =>
  cases cornerBit g threshold (x, y - 1) with
  | none => exact ⟨[], Or.inl rfl, rfl⟩
  | some t2 =>
  cases cornerBit g threshold (x - 1, y - 1) with
  | none => exact ⟨[], Or.inl rfl, rfl⟩
  | some t3 =>
  exact ⟨CASES.getD (t0 ||| t1 <<< 1 ||| t2 <<< 2 ||| t3 <<< 3) [],
    (cases_getD_mem _).imp id id, rfl⟩

/-- A window with any segment has all four corner samples present. -/
theorem windowSegs_corners {g : GridQ} {threshold : ℚ} {x y : ℤ}
    (h : windowSegs g threshold x y ≠ []) :
    (∃ v, g.get_point (x - 1, y) = some v)
    ∧ (∃ v, g.get_point (x, y) = some v)
    ∧ (∃ v, g.get_point (x, y - 1) = some v)
    ∧ (∃ v, g.get_point (x - 1, y - 1) = some v) := by
  unfold windowSegs at h
  cases h0 : cornerBit g threshold (x - 1, y) with
  | none => rw [h0] at h; exact absurd rfl h
  | some t0 =>
  cases h1 : cornerBit g threshold (x, y) with
  | none => rw [h0, h1] at h; exact absurd rfl h
  | some t1 =>
  cases h2 : cornerBit g threshold (x, y - 1) with
  | none => rw [h0, h1, h2] at h; exact absurd rfl h
  | some t2 =>
  cases h3 : cornerBit g threshold (x - 1, y - 1) with
  | none => rw [h0, h1, h2, h3] at h; exact absurd rfl h
  | some t3 =>
  refine ⟨?_, ?_, ?_, ?_⟩
  · rcases Option.map_eq_some'.mp h0 with ⟨v, hv, _⟩; exact ⟨v, hv⟩
  · rcases Option.map_eq_some'.mp h1 with ⟨v, hv, _⟩; exact ⟨v, hv⟩
  · rcases Option.map_eq_some'.mp h2 with ⟨v, hv, _⟩; exact ⟨v, hv⟩
  · rcases Option.map_eq_some'.mp h3 with ⟨v, hv, _⟩; exact ⟨v, hv⟩

/-- The two endpoints of an emittable segment differ. -/
theorem goodSeg_ne {g : GridQ} {threshold : ℚ} {a b : Pt}
    (h : GoodSeg g threshold a b) : a ≠ b := by
  obtain ⟨x, y, hmem⟩ := h
  obtain ⟨L, hL, hEq⟩ := windowSegs_eq g threshold x y
  rw [hEq] at hmem
  obtain ⟨s, hs, hshape⟩ := List.mem_map.mp hmem
  rcases hL with rfl | hL
  · exact absurd hs (List.not_mem_nil s)
  have hne := cases_seg_ne L hL s hs
  have ea1 : s.1.1 + (x : ℚ) = a.1 := congrArg (fun q : Pt × Pt => q.1.1) hshape
  have ea2 : s.1.2 + (y : ℚ) = a.2 := congrArg (fun q : Pt × Pt => q.1.2) hshape
  have eb1 : s.2.1 + (x : ℚ) = b.1 := congrArg (fun q : Pt × Pt => q.2.1) hshape
  have eb2 : s.2.2 + (y : ℚ) = b.2 := congrArg (fun q : Pt × Pt => q.2.2) hshape
  intro hab
  have c1 : a.1 = b.1 := congrArg Prod.fst hab
  have c2 : a.2 = b.2 := congrArg Prod.snd hab
  exact hne (Prod.ext (by linarith) (by linarith))

/-- No segment is emittable in both directions: coincident endpoint pairs
force the two windows to coincide (`cases_rigid`), and no case list contains
a segment together with its reverse (`cases_no_reverse_pair`). -/
theorem goodSeg_asymm {g : GridQ} {threshold : ℚ} {a b : Pt}
    (h1 : GoodSeg g threshold a b) (h2 : GoodSeg g threshold b a) : False := by
  obtain ⟨x, y, hm1⟩ := h1
  obtain ⟨x', y', hm2⟩ := h2
  obtain ⟨L₁, hL₁, hEq₁⟩ := windowSegs_eq g threshold x y
  obtain ⟨L₂, hL₂, hEq₂⟩ := windowSegs_eq g threshold x' y'
  rw [hEq₁] at hm1
  rw [hEq₂] at hm2
  obtain ⟨s, hs, hshape₁⟩ := List.mem_map.mp hm1
  obtain ⟨t, ht, hshape₂⟩ := List.mem_map.mp hm2
  rcases hL₁ with rfl | hL₁
  · exact absurd hs (List.not_mem_nil s)
  rcases hL₂ with rfl | hL₂
  · exact absurd ht (List.not_mem_nil t)
  have ea1 : s.1.1 + (x : ℚ) = a.1 := congrArg (fun q : Pt × Pt => q.1.1) hshape₁
  have ea2 : s.1.2 + (y : ℚ) = a.2 := congrArg (fun q : Pt × Pt => q.1.2) hshape₁
  have eb1 : s.2.1 + (x : ℚ) = b.1 := congrArg (fun q : Pt × Pt => q.2.1) hshape₁
  have eb2 : s.2.2 + (y : ℚ) = b.2 := congrArg (fun q : Pt × Pt => q.2.2) hshape₁
  have fb1 : t.1.1 + (x' : ℚ) = b.1 := congrArg (fun q : Pt × Pt => q.1.1) hshape₂
  have fb2 : t.1.2 + (y' : ℚ) = b.2 := congrArg (fun q : Pt × Pt => q.1.2) hshape₂
  have fa1 : t.2.1 + (x' : ℚ) = a.1 := congrArg (fun q : Pt × Pt => q.2.1) hshape₂
  have fa2 : t.2.2 + (y' : ℚ) = a.2 := congrArg (fun q : Pt × Pt => q.2.2) hshape₂
  have e1 : s.1.1 - t.2.1 = s.2.1 - t.1.1 := by linarith
  have e2 : s.1.2 - t.2.2 = s.2.2 - t.1.2 := by linarith
  have d1 : s.1.1 - t.2.1 = ((x' - x : ℤ) : ℚ) := by push_cast; linarith
  have d2 : s.1.2 - t.2.2 = ((y' - y : ℤ) : ℚ) := by push_cast; linarith
  have hd1 : (s.1.1 - t.2.1).den = 1 := by rw [d1]; exact Rat.den_intCast _
  have hd2 : (s.1.2 - t.2.2).den = 1 := by rw [d2]; exact Rat.den_intCast _
  obtain ⟨hst1, hst2⟩ := cases_rigid L₁ hL₁ L₂ hL₂ s hs t ht e1 e2 hd1 hd2
  have hx : x = x' := by
    have : ((x' - x : ℤ) : ℚ) = 0 := by rw [← d1, hst1]; simp [sub_self]
    have : (x' - x : ℤ) = 0 := by exact_mod_cast this
    omega
  have hy : y = y' := by
    have : ((y' - y : ℤ) : ℚ) = 0 := by rw [← d2, hst1]; simp [sub_self]
    have : (y' - y : ℤ) = 0 := by exact_mod_cast this
    omega
  subst hx hy
  have hmapinj : Function.Injective
      (fun s : Pt × Pt => ((s.1.1 + (x : ℚ), s.1.2 + (y : ℚ)),
        (s.2.1 + (x : ℚ), s.2.2 + (y : ℚ)))) := by
    intro u v huv
    simp only [Prod.mk.injEq] at huv
    obtain ⟨⟨a1, a2⟩, b1, b2⟩ := huv
    refine Prod.ext (Prod.ext ?_ ?_) (Prod.ext ?_ ?_) <;> linarith
  have hLL : L₁ = L₂ := by
    have := hEq₁.symm.trans hEq₂
    exact List.map_injective_iff.mpr hmapinj this
  exact cases_no_reverse_pair L₁ hL₁ s hs t (hLL ▸ ht) ⟨hst1, hst2⟩

/-- Packaging a shifted case offset into a `SafePt`. -/
theorem safePt_of_offset {W : ℕ} {x y : ℤ} (hx1 : 1 ≤ x)
    (hx2 : x + 3 ≤ (W : ℤ)) (hy : 1 ≤ y) {cx cy : ℚ}
    (hcx : cx = 1/2 ∨ cx = 1 ∨ cx = 3/2) (hcy : cy = 1/2 ∨ cy = 1 ∨ cy = 3/2) :
    SafePt W (cx + (x : ℚ), cy + (y : ℚ)) := by
  have hm : ∀ c : ℚ, (c = 1/2 ∨ c = 1 ∨ c = 3/2) → ∀ z : ℤ,
      ∃ k : ℤ, c + (z : ℚ) = ((2 * z + k : ℤ) : ℚ) / 2 ∧ 1 ≤ k ∧ k ≤ 3 := by
    intro c hc z
    rcases hc with rfl | rfl | rfl
    · exact ⟨1, by push_cast; ring, by omega, by omega⟩
    · exact ⟨2, by push_cast; ring, by omega, by omega⟩
    · exact ⟨3, by push_cast; ring, by omega, by omega⟩
  obtain ⟨k, hk, hk1, hk3⟩ := hm cx hcx x
  obtain ⟨k', hk', hk'1, hk'3⟩ := hm cy hcy y
  exact ⟨2 * x + k, 2 * y + k', hk, hk', by omega, by omega, by omega⟩

/-- Both endpoints of an emittable segment are safe, for a domain-bounded
grid. -/
theorem goodSeg_safe {g : GridQ} {threshold : ℚ} {a b : Pt}
    (hg : DomBounded g) (h : GoodSeg g threshold a b) :
    SafePt g.size.1 a ∧ SafePt g.size.1 b := by
  obtain ⟨x, y, hmem⟩ := h
  have hne : windowSegs g threshold x y ≠ [] := by
    intro hempty; rw [hempty] at hmem; exact absurd hmem (List.not_mem_nil _)
  obtain ⟨⟨vl, hvl⟩, ⟨vc, hvc⟩, ⟨vt, hvt⟩, -⟩ := windowSegs_corners hne
  obtain ⟨hxl, -, -⟩ := hg _ _ hvl
  obtain ⟨-, hxr, -⟩ := hg _ _ hvc
  obtain ⟨-, -, hyt⟩ := hg _ _ hvt
  have hx1 : 1 ≤ x := by omega
  have hx2 : x + 3 ≤ (g.size.1 : ℤ) := hxr
  have hy1 : 1 ≤ y := by omega
  obtain ⟨L, hL, hEq⟩ := windowSegs_eq g threshold x y
  rw [hEq] at hmem
  obtain ⟨s, hs, hshape⟩ := List.mem_map.mp hmem
  rcases hL with rfl | hL
  · exact absurd hs (List.not_mem_nil s)
  obtain ⟨o11, o12, o21, o22⟩ := cases_offsets L hL s hs
  have ha : (s.1.1 + (x : ℚ), s.1.2 + (y : ℚ)) = a :=
    congrArg Prod.fst hshape
  have hb : (s.2.1 + (x : ℚ), s.2.2 + (y : ℚ)) = b :=
    congrArg Prod.snd hshape
  rw [← ha, ← hb]
  exact ⟨safePt_of_offset hx1 hx2 hy1 o11 o12,
         safePt_of_offset hx1 hx2 hy1 o21 o22⟩

/-! ### Quantized-key facts -/

/-- On safe points the quantized key evaluates to the exact integer
`m + n·(2·width + 4)` (no truncation or clamping occurs). -/
theorem indexKey_eval (width : ℕ) {p : Pt} {m n : ℤ}
    (h1 : p.1 = (m : ℚ) / 2) (h2 : p.2 = (n : ℚ) / 2) :
    indexKey width p = (m + n * (2 * (width : ℤ) + 4)).toNat := by
  unfold indexKey
  have harg : p.1 * 2 + p.2 * (((width + 2) * 4 : ℕ) : ℚ)
      = ((m + n * (2 * (width : ℤ) + 4) : ℤ) : ℚ) := by
    rw [h1, h2]; push_cast; ring
  have hfl : ∀ k : ℤ, ((k : ℚ)).floor = k := by
    intro k
    rw [Rat.floor_def']
    simp
  rw [harg, hfl]

/-- The quantized key is injective on safe points. -/
theorem indexKey_inj {width : ℕ} {p q : Pt} (hp : SafePt width p)
    (hq : SafePt width q) (h : indexKey width p = indexKey width q) : p = q := by
  obtain ⟨m, n, hp1, hp2, hm3, hmW, hn3⟩ := hp
  obtain ⟨m', n', hq1, hq2, hm'3, hm'W, hn'3⟩ := hq
  rw [indexKey_eval width hp1 hp2, indexKey_eval width hq1 hq2] at h
  set D : ℤ := 2 * (width : ℤ) + 4 with hD
  have hDpos : 0 < D := by omega
  have hval : m + n * D = m' + n' * D := by
    have t1 : (0 : ℤ) ≤ m + n * D := by nlinarith
    have t2 : (0 : ℤ) ≤ m' + n' * D := by nlinarith
    omega
  have hnn : n = n' := by
    rcases lt_trichotomy n n' with hlt | heq | hgt
    · have h1 : n + 1 ≤ n' := by omega
      have : (n + 1) * D ≤ n' * D := by
        exact mul_le_mul_of_nonneg_right h1 (le_of_lt hDpos)
      nlinarith
    · exact heq
    · have h1 : n' + 1 ≤ n := by omega
      have : (n' + 1) * D ≤ n * D := by
        exact mul_le_mul_of_nonneg_right h1 (le_of_lt hDpos)
      nlinarith
  have hmm : m = m' := by
    rw [hnn] at hval; omega
  apply Prod.ext
  · rw [hp1, hq1, hmm]
  · rw [hp2, hq2, hnn]

/-! ### Fragment-construction lemmas for the stitch branches -/

theorem aLookup_none_of_bound {β : Type} {l : List (ℕ × β)} {n : ℕ}
    (h : ∀ id F, aLookup l id = some F → id < n) : aLookup l n = none := by
  cases hl : aLookup l n with
  | none => rfl
  | some F => exact absurd (h n F hl) (lt_irrefl n)

theorem mem_of_head?_eq {α : Type} {l : List α} {a : α}
    (h : l.head? = some a) : a ∈ l := by
  cases l with
  | nil => cases h
  | cons b t =>
    simp only [List.head?_cons, Option.some.injEq] at h
    cases h
    exact List.mem_cons_self _ _

theorem mem_of_getLast?_eq {α : Type} {l : List α} {a : α}
    (h : l.getLast? = some a) : a ∈ l := by
  have hx : a ∈ l.getLast? := h
  obtain ⟨hne, rfl⟩ := List.mem_getLast?_eq_getLast hx
  exact List.getLast_mem hne

theorem head?_append_left {α : Type} {l l' : List α} {a : α}
    (h : l.head? = some a) : (l ++ l').head? = some a := by
  cases l with
  | nil => cases h
  | cons b t =>
    simp only [List.head?_cons, Option.some.injEq] at h
    cases h
    rfl

theorem getLast?_cons_right {α : Type} (a : α) {l : List α} (h : l ≠ []) :
    (a :: l).getLast? = l.getLast? := by
  have : a :: l = [a] ++ l := rfl
  rw [this, List.getLast?_append_of_ne_nil [a] h]

theorem fragRing_ne_nil {g : GridQ} {threshold : ℚ} {W : ℕ} {F : Fragment}
    (hF : FragOK g threshold W F) : F.ring ≠ [] := by
  intro h
  have := hF.1
  rw [h] at this
  simp at this

/-- The last point of a sound fragment whose end key matches a safe point is
that point. -/
theorem frag_last_eq {g : GridQ} {threshold : ℚ} {W : ℕ} {F : Fragment}
    {p : Pt} (hF : FragOK g threshold W F) (hkey : F.fend = indexKey W p)
    (hp : SafePt W p) :
    F.ring.getLast? = some p := by
  obtain ⟨hlen, hchain, hsafe, hhead, hlast⟩ := hF
  have hne : F.ring ≠ [] := by
    intro h; rw [h] at hlen; simp at hlen
  obtain ⟨q, hq⟩ := Option.isSome_iff_exists.mp (List.getLast?_isSome.mpr hne)
  have hqmem : q ∈ F.ring := mem_of_getLast?_eq hq
  have : q = p :=
    indexKey_inj (hsafe q hqmem) hp ((hlast q hq).symm.trans hkey)
  rw [hq, this]

/-- The first point of a sound fragment whose start key matches a safe point
is that point. -/
theorem frag_head_eq {g : GridQ} {threshold : ℚ} {W : ℕ} {F : Fragment}
    {p : Pt} (hF : FragOK g threshold W F) (hkey : F.fstart = indexKey W p)
    (hp : SafePt W p) :
    F.ring.head? = some p := by
  obtain ⟨hlen, hchain, hsafe, hhead, hlast⟩ := hF
  have hne : F.ring ≠ [] := by
    intro h; rw [h] at hlen; simp at hlen
  obtain ⟨q, hq⟩ := Option.isSome_iff_exists.mp (List.head?_isSome.mpr hne)
  have hqmem : q ∈ F.ring := mem_of_head?_eq hq
  have : q = p :=
    indexKey_inj (hsafe q hqmem) hp ((hhead q hq).symm.trans hkey)
  rw [hq, this]

/-- Appending the segment end to a fragment ending at the segment start
(isoringbuilder.rs lines 198-210). -/
theorem fragOK_extend_end {g : GridQ} {threshold : ℚ} {W : ℕ} {F : Fragment}
    {strt en : Pt} (hF : FragOK g threshold W F)
    (hkey : F.fend = indexKey W strt)
    (hGood : GoodSeg g threshold strt en)
    (hss : SafePt W strt) (hse : SafePt W en) :
    FragOK g threshold W ⟨F.fstart, indexKey W en, F.ring ++ [en]⟩ := by
  have hlastp := frag_last_eq hF hkey hss
  obtain ⟨hlen, hchain, hsafe, hhead, hlast⟩ := hF
  refine ⟨?_, ?_, ?_, ?_, ?_⟩
  · simp only [List.length_append, List.length_singleton]
    omega
  · rw [List.chain'_append]
    refine ⟨hchain, List.chain'_singleton en, ?_⟩
    intro u hu v hv
    simp only [List.head?_cons, Option.mem_def, Option.some.injEq] at hv
    rw [Option.mem_def, hlastp] at hu
    cases hu
    cases hv
    exact hGood
  · intro p hp
    rcases List.mem_append.mp hp with hp | hp
    · exact hsafe p hp
    · rw [List.mem_singleton.mp hp]; exact hse
  · intro p hp
    have hne : F.ring ≠ [] := by
      intro h; rw [h] at hlen; simp at hlen
    rw [List.head?_append_of_ne_nil _ hne] at hp
    exact hhead p hp
  · intro p hp
    rw [List.getLast?_concat] at hp
    cases hp
    rfl

/-- Prepending the segment start to a fragment starting at the segment end
(isoringbuilder.rs lines 237-249). -/
theorem fragOK_extend_front {g : GridQ} {threshold : ℚ} {W : ℕ} {F : Fragment}
    {strt en : Pt} (hF : FragOK g threshold W F)
    (hkey : F.fstart = indexKey W en)
    (hGood : GoodSeg g threshold strt en)
    (hss : SafePt W strt) (hse : SafePt W en) :
    FragOK g threshold W ⟨indexKey W strt, F.fend, strt :: F.ring⟩ := by
  have hheadp := frag_head_eq hF hkey hse
  obtain ⟨hlen, hchain, hsafe, hhead, hlast⟩ := hF
  refine ⟨?_, ?_, ?_, ?_, ?_⟩
  · simp only [List.length_cons]
    omega
  · rw [List.chain'_cons']
    refine ⟨?_, hchain⟩
    intro u hu
    rw [Option.mem_def, hheadp] at hu
    cases hu
    exact hGood
  · intro p hp
    rcases List.mem_cons.mp hp with rfl | hp
    · exact hss
    · exact hsafe p hp
  · intro p hp
    simp only [List.head?_cons, Option.some.injEq] at hp
    cases hp
    rfl
  · intro p hp
    have hne : F.ring ≠ [] := by
      intro h; rw [h] at hlen; simp at hlen
    rw [getLast?_cons_right strt hne] at hp
    exact hlast p hp

/-- Splicing two fragments through the current segment
(isoringbuilder.rs lines 186-197). -/
theorem fragOK_splice {g : GridQ} {threshold : ℚ} {W : ℕ} {F G : Fragment}
    {strt en : Pt} (hF : FragOK g threshold W F) (hG : FragOK g threshold W G)
    (hkF : F.fend = indexKey W strt) (hkG : G.fstart = indexKey W en)
    (hGood : GoodSeg g threshold strt en)
    (hss : SafePt W strt) (hse : SafePt W en) :
    FragOK g threshold W ⟨F.fstart, G.fend, F.ring ++ G.ring⟩ := by
  have hlastp := frag_last_eq hF hkF hss
  have hheadp := frag_head_eq hG hkG hse
  obtain ⟨hlenF, hchainF, hsafeF, hheadF, hlastF⟩ := hF
  obtain ⟨hlenG, hchainG, hsafeG, hheadG, hlastG⟩ := hG
  have hneF : F.ring ≠ [] := by
    intro h; rw [h] at hlenF; simp at hlenF
  have hneG : G.ring ≠ [] := by
    intro h; rw [h] at hlenG; simp at hlenG
  refine ⟨?_, ?_, ?_, ?_, ?_⟩
  · simp only [List.length_append]
    omega
  · rw [List.chain'_append]
    refine ⟨hchainF, hchainG, ?_⟩
    intro u hu v hv
    rw [Option.mem_def, hlastp] at hu
    rw [Option.mem_def, hheadp] at hv
    cases hu
    cases hv
    exact hGood
  · intro p hp
    rcases List.mem_append.mp hp with hp | hp
    · exact hsafeF p hp
    · exact hsafeG p hp
  · intro p hp
    rw [List.head?_append_of_ne_nil _ hneF] at hp
    exact hheadF p hp
  · intro p hp
    rw [List.getLast?_append_of_ne_nil F.ring hneG] at hp
    exact hlastG p hp

/-- The ring emitted when a fragment closes on itself
(isoringbuilder.rs lines 182-185): closed, chained, at least three points. -/
theorem ringOK_close {g : GridQ} {threshold : ℚ} {W : ℕ} {F : Fragment}
    {strt en : Pt} (hF : FragOK g threshold W F)
    (hkEnd : F.fend = indexKey W strt) (hkStart : F.fstart = indexKey W en)
    (hGood : GoodSeg g threshold strt en)
    (hss : SafePt W strt) (hse : SafePt W en) :
    RingOK g threshold (F.ring ++ [en]) := by
  have hlastp := frag_last_eq hF hkEnd hss
  have hheadp := frag_head_eq hF hkStart hse
  obtain ⟨hlen, hchain, hsafe, hhead, hlast⟩ := hF
  have hne : F.ring ≠ [] := by
    intro h; rw [h] at hlen; simp at hlen
  refine ⟨?_, ?_, ?_⟩
  · rw [List.head?_append_of_ne_nil _ hne, List.getLast?_concat, hheadp]
  · rw [List.chain'_append]
    refine ⟨hchain, List.chain'_singleton en, ?_⟩
    intro u hu v hv
    simp only [List.head?_cons, Option.mem_def, Option.some.injEq] at hv
    rw [Option.mem_def, hlastp] at hu
    cases hu
    cases hv
    exact hGood
  · simp only [List.length_append, List.length_singleton]
    omega

/-- C6: in the 16-entry case table, codes 0 and 15 produce no segments;
exactly the two saddle codes 5 and 10 produce two segments each, and those
two segments are pairwise disjoint (all four endpoints distinct) and stay
away from the cell center (1,1), so they are never merged through it; every
other code produces exactly one segment; and every endpoint is an offset
inside the 2×2 normalized cell space. -/
theorem c6_case_table :
    CASES.length = 16
    ∧ CASES.getD 0 [] = [] ∧ CASES.getD 15 [] = []
    ∧ (List.range 16).filter (fun c => (CASES.getD c []).length = 2) = [5, 10]
    ∧ (List.range 16).filter (fun c => (CASES.getD c []).length = 1)
        = [1, 2, 3, 4, 6, 7, 8, 9, 11, 12, 13, 14]
    ∧ ((CASES.getD 5 []).flatMap (fun s => [s.1, s.2])).Pairwise (· ≠ ·)
    ∧ ((CASES.getD 10 []).flatMap (fun s => [s.1, s.2])).Pairwise (· ≠ ·)
    ∧ ((1 : ℚ), (1 : ℚ)) ∉ (CASES.getD 5 []).flatMap (fun s => [s.1, s.2])
    ∧ ((1 : ℚ), (1 : ℚ)) ∉ (CASES.getD 10 []).flatMap (fun s => [s.1, s.2])
    ∧ CASES.join.all
        (fun s => decide (0 ≤ s.1.1 ∧ s.1.1 ≤ 2 ∧ 0 ≤ s.1.2 ∧ s.1.2 ≤ 2
          ∧ 0 ≤ s.2.1 ∧ s.2.1 ≤ 2 ∧ 0 ≤ s.2.2 ∧ s.2.2 ≤ 2)) = true := by
  decide

/-- C1 counterexample: in a 1×2 tile grid with both tiles populated
(tile size 1), tile (0,0) has a populated right neighbor, yet its extent
block (the first six entries below) still contains the right-border extent
⟨(0,0),(1,0)⟩ — emitted at grid.rs line 167 exactly when `has_tile` of the
neighbor is `true`, the opposite of the guard the claim (and the comment at
grid.rs lines 120-121) describes.  It duplicates the left-border extent
⟨(0,0),(1,0)⟩ that tile (1,0) itself emits (entry 9 below). -/
theorem c1_right_border_extent_despite_neighbor :
    TiledBufferS.has_tile ⟨1, [[0], [0]], 2, 1⟩ 1 0 = true
    ∧ TiledBufferS.extents ⟨1, [[0], [0]], 2, 1⟩ =
      [ ⟨(0, 0), (0, 0)⟩, ⟨(-1, 0), (0, 1)⟩, ⟨(-1, 0), (0, 0)⟩,
        ⟨(-1, -1), (0, 0)⟩, ⟨(0, -1), (0, 0)⟩, ⟨(0, 0), (1, 0)⟩,
        ⟨(1, 0), (1, 0)⟩, ⟨(0, 0), (1, 1)⟩, ⟨(0, 0), (1, 0)⟩,
        ⟨(0, -1), (1, 0)⟩, ⟨(1, -1), (1, 0)⟩ ] := by
  decide

/-- C2 counterexample: `set_tile` only rejects `x > width` / `y > height`
(grid.rs line 89), so the out-of-range index `x = width` slips through: on a
1×1 tile grid, `set_tile(1, 0, ..)` with correctly sized data reaches the
slice write with index 1 and panics (modelled as `none`) instead of returning
`BadDimension`; on a 2×2 tile grid, `set_tile(2, 0, ..)` silently succeeds
and stores the data in tile (0,1) — the slot with linear index 2 — instead of
failing. -/
theorem c2_set_tile_accepts_x_eq_width :
    TiledBufferS.set_tile ⟨1, [[0]], 1, 1⟩ 1 0 [5] = none
    ∧ TiledBufferS.set_tile ⟨1, [[0], [0], [0], [0]], 2, 2⟩ 2 0 [7] =
        some (.ok ⟨1, [[0], [0], [7], [0]], 2, 2⟩) := by
  decide

/-- C8: `isobands` called with fewer than two thresholds fails with
`Unexpected` (contourbuilder.rs lines 253-255). -/
theorem c8_isobands_needs_two_thresholds (b : ContourBuilderS) (g : GridQ)
    (thresholds : List ℚ) (h : thresholds.length < 2) :
    isobands b g thresholds = .error .Unexpected := by
  unfold isobands
  simp [h]

/-- C8 witness: a singleton threshold list is rejected. -/
theorem c8_isobands_needs_two_thresholds_witness :
    isobands (ContourBuilderS.new false) (bufferGrid [] 0 0) [1/2]
      = .error .Unexpected :=
  c8_isobands_needs_two_thresholds (ContourBuilderS.new false)
    (bufferGrid [] 0 0) [1/2] (by decide)

set_option maxHeartbeats 1000000 in
theorem stitch_pres {g : GridQ} {threshold : ℚ} {line : Pt × Pt} {x y : ℤ}
    {acc acc' : IsoRingBuilderS × List Ring}
    (hg : DomBounded g)
    (hseg : ((line.1.1 + (x : ℚ), line.1.2 + (y : ℚ)),
             (line.2.1 + (x : ℚ), line.2.2 + (y : ℚ))) ∈
        windowSegs g threshold x y)
    (hP : StateOK g threshold g.size.1 acc)
    (h : stitch g.size.1 line x y acc = .ok acc') :
    StateOK g threshold g.size.1 acc' := by
  obtain ⟨st, result⟩ := acc
  obtain ⟨hInv, hRings⟩ := hP
  replace hInv : InvB g threshold g.size.1 st := hInv
  replace hRings : ∀ r ∈ result, RingOK g threshold r := hRings
  obtain ⟨hIf, hIs, hIe⟩ := hInv
  simp only [stitch] at h
  set strt : Pt := (line.1.1 + (x : ℚ), line.1.2 + (y : ℚ)) with hstrtdef
  set en : Pt := (line.2.1 + (x : ℚ), line.2.2 + (y : ℚ)) with hendef
  set si := indexKey g.size.1 strt with hsidef
  set ei := indexKey g.size.1 en with heidef
  have hGood : GoodSeg g threshold strt en := ⟨x, y, hseg⟩
  obtain ⟨hss, hse⟩ := goodSeg_safe hg hGood
  split at h
  case isTrue hbe =>
    split at h
    case isTrue hbs =>
      split at h
      case h_2 => exact (Except.noConfusion h)
      case h_1 f_ix g_ix heqe heqs =>
        obtain ⟨F, hFslab, hFend⟩ := hIe _ _ heqe
        obtain ⟨G, hGslab, hGstart⟩ := hIs _ _ heqs
        split at h
        case isTrue hfg =>
          split at h
          case h_2 => exact (Except.noConfusion h)
          case h_1 f heqf =>
            cases h
            subst hfg
            have hfF : f = F := Option.some.inj (heqf.symm.trans hFslab)
            have hfG : f = G := Option.some.inj (heqf.symm.trans hGslab)
            have hFOK := (hIf _ _ heqf).1
            refine ⟨⟨?_, ?_, ?_⟩, ?_⟩
            · intro id F' hl
              rw [aLookup_aErase] at hl
              split at hl
              · exact absurd hl (by simp)
              · exact hIf _ _ hl
            · intro k id hl
              rw [aLookup_aErase] at hl
              split at hl
              · exact absurd hl (by simp)
              next hk =>
                obtain ⟨F', hF's, hF'k⟩ := hIs _ _ hl
                refine ⟨F', ?_, hF'k⟩
                rw [aLookup_aErase]
                split
                next hid =>
                  subst hid
                  have : F' = f := (Option.some.inj (heqf.symm.trans hF's)).symm
                  rw [this, hfG] at hF'k
                  exact absurd (hGstart.symm.trans hF'k).symm hk
                · exact hF's
            · intro k id hl
              rw [aLookup_aErase] at hl
              split at hl
              · exact absurd hl (by simp)
              next hk =>
                obtain ⟨F', hF's, hF'k⟩ := hIe _ _ hl
                refine ⟨F', ?_, hF'k⟩
                rw [aLookup_aErase]
                split
                next hid =>
                  subst hid
                  have : F' = f := (Option.some.inj (heqf.symm.trans hF's)).symm
                  rw [this, hfF] at hF'k
                  exact absurd (hFend.symm.trans hF'k).symm hk
                · exact hF's
            · intro r hr
              rcases List.mem_append.mp hr with hr | hr
              · exact hRings r hr
              · rw [List.mem_singleton.mp hr]
                refine ringOK_close hFOK ?_ ?_ hGood hss hse
                · rw [hfF]; exact hFend
                · rw [hfG]; exact hGstart
        case isFalse hfg =>
          split at h
          case h_2 => exact (Except.noConfusion h)
          case h_1 f gg heqf heqg =>
            cases h
            have hfF : f = F := Option.some.inj (heqf.symm.trans hFslab)
            have hgG : gg = G := Option.some.inj (heqg.symm.trans hGslab)
            have hFOK := (hIf _ _ heqf).1
            have hGOK := (hIf _ _ heqg).1
            have hfix_lt := (hIf _ _ heqf).2
            have hgix_lt := (hIf _ _ heqg).2
            have hNF : FragOK g threshold g.size.1
                ⟨f.fstart, gg.fend, f.ring ++ gg.ring⟩ := by
              refine fragOK_splice hFOK hGOK ?_ ?_ hGood hss hse
              · rw [hfF]; exact hFend
              · rw [hgG]; exact hGstart
            refine ⟨⟨?_, ?_, ?_⟩, ?_⟩
            · intro id F' hl
              rw [aLookup_aInsert] at hl
              split at hl
              next hid =>
                cases hl
                exact ⟨hNF, lt_of_eq_of_lt hid (Nat.lt_succ_self _)⟩
              next hid =>
                rw [aLookup_aErase] at hl
                split at hl
                · exact absurd hl (by simp)
                rw [aLookup_aErase] at hl
                split at hl
                · exact absurd hl (by simp)
                have := hIf _ _ hl
                exact ⟨this.1, Nat.lt_succ_of_lt this.2⟩
            · intro k id hl
              rw [aLookup_aInsert] at hl
              split at hl
              next hk =>
                cases hl
                subst hk
                refine ⟨⟨f.fstart, gg.fend, f.ring ++ gg.ring⟩, ?_, rfl⟩
                rw [aLookup_aInsert, if_pos rfl]
              next hk =>
                rw [aLookup_aErase] at hl
                split at hl
                · exact absurd hl (by simp)
                next hkei =>
                  obtain ⟨F', hF's, hF'k⟩ := hIs _ _ hl
                  have hidlt := (hIf _ _ hF's).2
                  refine ⟨F', ?_, hF'k⟩
                  rw [aLookup_aInsert]
                  split
                  next hid => exact absurd (hid ▸ hidlt) (lt_irrefl _)
                  next hid =>
                    rw [aLookup_aErase]
                    split
                    next hid2 =>
                      subst hid2
                      have : F' = gg := (Option.some.inj (heqg.symm.trans hF's)).symm
                      rw [this, hgG] at hF'k
                      exact absurd (hGstart.symm.trans hF'k).symm hkei
                    next hid2 =>
                      rw [aLookup_aErase]
                      split
                      next hid3 =>
                        subst hid3
                        have : F' = f := (Option.some.inj (heqf.symm.trans hF's)).symm
                        rw [this] at hF'k
                        exact absurd hF'k.symm hk
                      next hid3 => exact hF's
            · intro k id hl
              rw [aLookup_aInsert] at hl
              split at hl
              next hk =>
                cases hl
                subst hk
                refine ⟨⟨f.fstart, gg.fend, f.ring ++ gg.ring⟩, ?_, rfl⟩
                rw [aLookup_aInsert, if_pos rfl]
              next hk =>
                rw [aLookup_aErase] at hl
                split at hl
                · exact absurd hl (by simp)
                next hksi =>
                  obtain ⟨F', hF's, hF'k⟩ := hIe _ _ hl
                  have hidlt := (hIf _ _ hF's).2
                  refine ⟨F', ?_, hF'k⟩
                  rw [aLookup_aInsert]
                  split
                  next hid => exact absurd (hid ▸ hidlt) (lt_irrefl _)
                  next hid =>
                    rw [aLookup_aErase]
                    split
                    next hid2 =>
                      subst hid2
                      have : F' = gg := (Option.some.inj (heqg.symm.trans hF's)).symm
                      rw [this] at hF'k
                      exact absurd hF'k.symm hk
                    next hid2 =>
                      rw [aLookup_aErase]
                      split
                      next hid3 =>
                        subst hid3
                        have : F' = f := (Option.some.inj (heqf.symm.trans hF's)).symm
                        rw [this, hfF] at hF'k
                        exact absurd (hFend.symm.trans hF'k).symm hksi
                      next hid3 => exact hF's
            · exact hRings
    case isFalse hbs =>
      split at h
      case h_2 => exact (Except.noConfusion h)
      case h_1 f_ix heqe =>
        split at h
        case h_2 => exact (Except.noConfusion h)
        case h_1 f heqf =>
          cases h
          obtain ⟨F, hFslab, hFend⟩ := hIe _ _ heqe
          have hfF : f = F := Option.some.inj (heqf.symm.trans hFslab)
          have hFOK := (hIf _ _ heqf).1
          have hfix_lt := (hIf _ _ heqf).2
          have hNF : FragOK g threshold g.size.1
              ⟨f.fstart, ei, f.ring ++ [en]⟩ := by
            refine fragOK_extend_end hFOK ?_ hGood hss hse
            rw [hfF]; exact hFend
          refine ⟨⟨?_, ?_, ?_⟩, ?_⟩
          · intro id F' hl
            rw [aLookup_aInsert] at hl
            split at hl
            next hid =>
              cases hl
              subst hid
              exact ⟨hNF, hfix_lt⟩
            next hid => exact hIf _ _ hl
          · intro k id hl
            obtain ⟨F', hF's, hF'k⟩ := hIs _ _ hl
            by_cases hid : id = f_ix
            · subst hid
              have hF'f : F' = f := (Option.some.inj (heqf.symm.trans hF's)).symm
              refine ⟨⟨f.fstart, ei, f.ring ++ [en]⟩, ?_, ?_⟩
              · rw [aLookup_aInsert, if_pos rfl]
              · rw [← hF'k, hF'f]
            · refine ⟨F', ?_, hF'k⟩
              rw [aLookup_aInsert, if_neg hid]
              exact hF's
          · intro k id hl
            rw [aLookup_aInsert] at hl
            split at hl
            next hk =>
              cases hl
              subst hk
              refine ⟨⟨f.fstart, ei, f.ring ++ [en]⟩, ?_, rfl⟩
              rw [aLookup_aInsert, if_pos rfl]
            next hk =>
              rw [aLookup_aErase] at hl
              split at hl
              · exact absurd hl (by simp)
              next hksi =>
                obtain ⟨F', hF's, hF'k⟩ := hIe _ _ hl
                by_cases hid : id = f_ix
                · subst hid
                  have hF'f : F' = f := (Option.some.inj (heqf.symm.trans hF's)).symm
                  rw [hF'f, hfF] at hF'k
                  exact absurd (hFend.symm.trans hF'k).symm hksi
                · refine ⟨F', ?_, hF'k⟩
                  rw [aLookup_aInsert, if_neg hid]
                  exact hF's
          · exact hRings
  case isFalse hbe =>
    split at h
    case isTrue hbs =>
      split at h
      case h_2 => exact (Except.noConfusion h)
      case h_1 f_ix heqs =>
        split at h
        case h_2 => exact (Except.noConfusion h)
        case h_1 f heqf =>
          cases h
          obtain ⟨F, hFslab, hFstart⟩ := hIs _ _ heqs
          have hfF : f = F := Option.some.inj (heqf.symm.trans hFslab)
          have hFOK := (hIf _ _ heqf).1
          have hfix_lt := (hIf _ _ heqf).2
          have hNF : FragOK g threshold g.size.1
              ⟨si, f.fend, strt :: f.ring⟩ := by
            refine fragOK_extend_front hFOK ?_ hGood hss hse
            rw [hfF]; exact hFstart
          refine ⟨⟨?_, ?_, ?_⟩, ?_⟩
          · intro id F' hl
            rw [aLookup_aInsert] at hl
            split at hl
            next hid =>
              cases hl
              subst hid
              exact ⟨hNF, hfix_lt⟩
            next hid => exact hIf _ _ hl
          · intro k id hl
            rw [aLookup_aInsert] at hl
            split at hl
            next hk =>
              cases hl
              subst hk
              refine ⟨⟨si, f.fend, strt :: f.ring⟩, ?_, rfl⟩
              rw [aLookup_aInsert, if_pos rfl]
            next hk =>
              rw [aLookup_aErase] at hl
              split at hl
              · exact absurd hl (by simp)
              next hkei =>
                obtain ⟨F', hF's, hF'k⟩ := hIs _ _ hl
                by_cases hid : id = f_ix
                · subst hid
                  have hF'f : F' = f := (Option.some.inj (heqf.symm.trans hF's)).symm
                  rw [hF'f, hfF] at hF'k
                  exact absurd (hFstart.symm.trans hF'k).symm hkei
                · refine ⟨F', ?_, hF'k⟩
                  rw [aLookup_aInsert, if_neg hid]
                  exact hF's
          · intro k id hl
            obtain ⟨F', hF's, hF'k⟩ := hIe _ _ hl
            by_cases hid : id = f_ix
            · subst hid
              have hF'f : F' = f := (Option.some.inj (heqf.symm.trans hF's)).symm
              refine ⟨⟨si, f.fend, strt :: f.ring⟩, ?_, ?_⟩
              · rw [aLookup_aInsert, if_pos rfl]
              · rw [← hF'k, hF'f]
            · refine ⟨F', ?_, hF'k⟩
              rw [aLookup_aInsert, if_neg hid]
              exact hF's
          · exact hRings
    case isFalse hbs =>
      cases h
      have hNF : FragOK g threshold g.size.1 ⟨si, ei, [strt, en]⟩ := by
        refine ⟨by simp, ?_, ?_, ?_, ?_⟩
        · exact List.chain'_pair.mpr hGood
        · intro p hp
          rcases List.mem_cons.mp hp with rfl | hp
          · exact hss
          · rw [List.mem_singleton.mp hp]; exact hse
        · intro p hp
          simp only [List.head?_cons, Option.some.injEq] at hp
          cases hp
          rfl
        · intro p hp
          simp only [List.getLast?_cons_cons, List.getLast?_singleton,
            Option.some.injEq] at hp
          cases hp
          rfl
      refine ⟨⟨?_, ?_, ?_⟩, ?_⟩
      · intro id F' hl
        rw [aLookup_aInsert] at hl
        split at hl
        next hid =>
          cases hl
          exact ⟨hNF, lt_of_eq_of_lt hid (Nat.lt_succ_self _)⟩
        next hid =>
          have := hIf _ _ hl
          exact ⟨this.1, Nat.lt_succ_of_lt this.2⟩
      · intro k id hl
        rw [aLookup_aInsert] at hl
        split at hl
        next hk =>
          cases hl
          subst hk
          refine ⟨⟨si, ei, [strt, en]⟩, ?_, rfl⟩
          rw [aLookup_aInsert, if_pos rfl]
        next hk =>
          obtain ⟨F', hF's, hF'k⟩ := hIs _ _ hl
          have hidlt := (hIf _ _ hF's).2
          refine ⟨F', ?_, hF'k⟩
          rw [aLookup_aInsert, if_neg (by omega)]
          exact hF's
      · intro k id hl
        rw [aLookup_aInsert] at hl
        split at hl
        next hk =>
          cases hl
          subst hk
          refine ⟨⟨si, ei, [strt, en]⟩, ?_, rfl⟩
          rw [aLookup_aInsert, if_pos rfl]
        next hk =>
          obtain ⟨F', hF's, hF'k⟩ := hIe _ _ hl
          have hidlt := (hIf _ _ hF's).2
          refine ⟨F', ?_, hF'k⟩
          rw [aLookup_aInsert, if_neg (by omega)]
          exact hF's
      · exact hRings

theorem windowStep_pres {g : GridQ} {threshold : ℚ} (hg : DomBounded g)
    (x y : ℤ) {acc acc' : IsoRingBuilderS × List Ring}
    (hP : StateOK g threshold g.size.1 acc)
    (h : windowStep g threshold g.size.1 x y acc = .ok acc') :
    StateOK g threshold g.size.1 acc' := by
  simp only [windowStep] at h
  split at h
  case h_2 =>
    cases h
    exact hP
  case h_1 t0 t1 t2 t3 heq0 heq1 heq2 heq3 =>
    have hws : windowSegs g threshold x y =
        (CASES.getD (t0 ||| t1 <<< 1 ||| t2 <<< 2 ||| t3 <<< 3) []).map
          (fun s => ((s.1.1 + (x : ℚ), s.1.2 + (y : ℚ)),
                     (s.2.1 + (x : ℚ), s.2.2 + (y : ℚ)))) := by
      unfold windowSegs
      rw [heq0, heq1, heq2, heq3]
    refine foldlM_except_inv _ (StateOK g threshold g.size.1) _ ?_ acc acc' hP h
    intro line hline s hs s' hstep
    refine stitch_pres hg ?_ hs hstep
    rw [hws]
    exact List.mem_map_of_mem _ hline

theorem scanExtent_pres {g : GridQ} {threshold : ℚ} (hg : DomBounded g)
    {acc acc' : IsoRingBuilderS × List Ring} (e : Extent)
    (hP : StateOK g threshold g.size.1 acc)
    (h : scanExtent g threshold g.size.1 acc e = .ok acc') :
    StateOK g threshold g.size.1 acc' := by
  unfold scanExtent at h
  refine foldlM_except_inv _ (StateOK g threshold g.size.1) _ ?_ acc acc' hP h
  intro yy _ s hs s' hstep
  refine foldlM_except_inv _ (StateOK g threshold g.size.1) _ ?_ s s' hs hstep
  intro xx _ t ht t' hstep'
  exact windowStep_pres hg xx yy ht hstep'

theorem compute_rings_ok {g : GridQ} {threshold : ℚ} (hg : DomBounded g)
    (st0 : IsoRingBuilderS)
    (hSK : StateOK g threshold g.size.1
      ((if st0.is_empty = false then clearB st0 else st0), []))
    {rings : List Ring} {st' : IsoRingBuilderS}
    (h : compute g threshold st0 = .ok (rings, st')) :
    ∀ r ∈ rings, RingOK g threshold r := by
  simp only [compute] at h
  cases hF : g.extents.foldlM (scanExtent g threshold g.size.1)
      ((if st0.is_empty = false then clearB st0 else st0), []) with
  | error e =>
    rw [hF] at h
    simp only [Except.map] at h
    cases h
  | ok accF =>
    rw [hF] at h
    simp only [Except.map] at h
    have hrings : accF.2 = rings := congrArg Prod.fst (Except.ok.inj h)
    have hSKF : StateOK g threshold g.size.1 accF := by
      refine foldlM_except_inv _ (StateOK g threshold g.size.1) _ ?_ _ accF hSK hF
      intro e _ s hs s' hstep
      exact scanExtent_pres hg e hs hstep
    rw [← hrings]
    exact hSKF.2

theorem invB_fresh (g : GridQ) (threshold : ℚ) (W : ℕ) : InvB g threshold W freshB := by
  refine ⟨?_, ?_, ?_⟩ <;>
  · intro a b hl
    simp [freshB, aLookup] at hl

theorem ringOK_closed_card {g : GridQ} {threshold : ℚ} {r : Ring}
    (hR : RingOK g threshold r) :
    r.head? = r.getLast? ∧ 3 ≤ r.toFinset.card := by
  obtain ⟨hclosed, hchain, hlen⟩ := hR
  refine ⟨hclosed, ?_⟩
  match r, hchain, hlen with
  | a :: b :: c :: l, hchain, _ =>
    have hab : GoodSeg g threshold a b := (List.chain'_cons.mp hchain).1
    have hbc : GoodSeg g threshold b c :=
      (List.chain'_cons.mp (List.chain'_cons.mp hchain).2).1
    have hne_ab : a ≠ b := goodSeg_ne hab
    have hne_bc : b ≠ c := goodSeg_ne hbc
    have hne_ac : a ≠ c := by
      intro hac
      subst hac
      exact goodSeg_asymm hab hbc
    have hsub : ({a, b, c} : Finset Pt) ⊆ (a :: b :: c :: l).toFinset := by
      intro z hz
      simp only [Finset.mem_insert, Finset.mem_singleton] at hz
      rcases hz with rfl | rfl | rfl <;> simp [List.toFinset_cons]
    have hcard : ({a, b, c} : Finset Pt).card = 3 := by
      rw [Finset.card_insert_of_not_mem (by simp [hne_ab, hne_ac]),
        Finset.card_insert_of_not_mem (by simp [hne_bc]),
        Finset.card_singleton]
    calc 3 = ({a, b, c} : Finset Pt).card := hcard.symm
    _ ≤ (a :: b :: c :: l).toFinset.card := Finset.card_le_card hsub

theorem bufferGrid_domBounded (data : List ℚ) (w h : ℕ) :
    DomBounded (bufferGrid data w h) := by
  intro c v hv
  simp only [bufferGrid] at hv
  split at hv
  · cases hv
  next hcond =>
    push_neg at hcond
    obtain ⟨h1, h2, h3, h4⟩ := hcond
    refine ⟨h1, ?_, h2⟩
    show c.1 + 3 ≤ ((w + 2 : ℕ) : ℤ)
    push_cast
    omega

theorem tiledGrid_domBounded (tb : TiledBufferS) (hts : 0 < tb.tile_size) :
    DomBounded (tiledGrid tb) := by
  intro c v hv
  simp only [tiledGrid, TiledBufferS.get_point] at hv
  split at hv
  · cases hv
  next hcond =>
    push_neg at hcond
    obtain ⟨h1, h2⟩ := hcond
    split at hv
    · cases hv
    next hcond2 =>
      push_neg at hcond2
      obtain ⟨h3, h4⟩ := hcond2
      have hx : c.1.toNat < tb.width * tb.tile_size :=
        (Nat.div_lt_iff_lt_mul hts).mp h3
      refine ⟨h1, ?_, h2⟩
      show c.1 + 3 ≤ ((tb.width * tb.tile_size + 2 : ℕ) : ℤ)
      push_cast
      omega

/-- C3: for every domain-bounded grid and every threshold, every ring
returned by `contour_rings` is closed (its first point equals its last) and
contains at least three distinct points. -/
theorem c3_contour_rings_closed (g : GridQ) (threshold : ℚ)
    (hg : DomBounded g) (rings : List Ring)
    (h : contour_rings g threshold = .ok rings) :
    ∀ r ∈ rings, r.head? = r.getLast? ∧ 3 ≤ r.toFinset.card := by
  intro r hr
  unfold contour_rings at h
  cases hc : compute g threshold freshB with
  | error e =>
    rw [hc] at h
    simp only [Except.map] at h
    cases h
  | ok p =>
    rw [hc] at h
    simp only [Except.map] at h
    obtain ⟨rings', st'⟩ := p
    have hr' : rings' = rings := Except.ok.inj h
    subst hr'
    refine ringOK_closed_card (compute_rings_ok hg freshB ?_ hc r hr)
    have hif : (if freshB.is_empty = false then clearB freshB else freshB)
        = freshB := by
      simp [freshB]
    rw [hif]
    refine ⟨invB_fresh g threshold _, ?_⟩
    intro r' hr'
    simp at hr'

theorem foldlM_const {α σ ε : Type} (step : σ → α → Except ε σ) (l : List α)
    (s : σ) (H : ∀ a ∈ l, step s a = .ok s) : l.foldlM step s = .ok s := by
  induction l with
  | nil => rfl
  | cons a t ih =>
    rw [List.foldlM_cons, H a (List.mem_cons_self a t)]
    simp only [bind, Except.bind]
    exact ih (fun b hb => H b (List.mem_cons_of_mem a hb))

theorem windowStep_uniform {g : GridQ} {threshold : ℚ} (x y : ℤ)
    (acc : IsoRingBuilderS × List Ring)
    (huni : (∀ c v, g.get_point c = some v → v < threshold)
      ∨ (∀ c v, g.get_point c = some v → threshold ≤ v)) :
    windowStep g threshold g.size.1 x y acc = .ok acc := by
  simp only [windowStep]
  split
  case h_2 => rfl
  case h_1 t0 t1 t2 t3 heq0 heq1 heq2 heq3 =>
    rcases huni with hlo | hhi
    · have hb : ∀ (c : ℤ × ℤ) (t : ℕ), cornerBit g threshold c = some t → t = 0 := by
        intro c t hc
        obtain ⟨v, hv, hfn⟩ := Option.map_eq_some'.mp hc
        rw [← hfn, if_neg (not_le.mpr (hlo c v hv))]
      rw [hb _ _ heq0, hb _ _ heq1, hb _ _ heq2, hb _ _ heq3]
      rfl
    · have hb : ∀ (c : ℤ × ℤ) (t : ℕ), cornerBit g threshold c = some t → t = 1 := by
        intro c t hc
        obtain ⟨v, hv, hfn⟩ := Option.map_eq_some'.mp hc
        rw [← hfn, if_pos (hhi c v hv)]
      rw [hb _ _ heq0, hb _ _ heq1, hb _ _ heq2, hb _ _ heq3]
      rfl

theorem scanExtent_uniform {g : GridQ} {threshold : ℚ}
    (acc : IsoRingBuilderS × List Ring) (e : Extent)
    (huni : (∀ c v, g.get_point c = some v → v < threshold)
      ∨ (∀ c v, g.get_point c = some v → threshold ≤ v)) :
    scanExtent g threshold g.size.1 acc e = .ok acc := by
  unfold scanExtent
  refine foldlM_const _ _ _ ?_
  intro yy _
  refine foldlM_const _ _ _ ?_
  intro xx _
  exact windowStep_uniform xx yy acc huni

/-- C5: a grid whose present samples are all strictly below the threshold,
or all at/above it, yields no rings: every cell window's 4-bit code is 0 or
15, both of which have an empty case-table entry, so nothing is ever
stitched. -/
theorem c5_uniform_grid_no_rings (g : GridQ) (threshold : ℚ)
    (huni : (∀ c v, g.get_point c = some v → v < threshold)
      ∨ (∀ c v, g.get_point c = some v → threshold ≤ v)) :
    contour_rings g threshold = .ok [] := by
  unfold contour_rings
  simp only [compute]
  have hif : (if freshB.is_empty = false then clearB freshB else freshB)
      = freshB := by
    simp [freshB]
  rw [hif]
  rw [foldlM_const _ _ _ (fun e _ => scanExtent_uniform (freshB, []) e huni)]
  rfl

/-- C3 witness: the diamond ring of a 3×3 grid with a hot center is closed
and has four distinct points. -/
theorem c3_contour_rings_closed_witness :
    ([((3 : ℚ), (5 : ℚ)/2), (5/2, 2), (2, 5/2), (5/2, 3), (3, 5/2)] : Ring).head?
      = ([((3 : ℚ), (5 : ℚ)/2), (5/2, 2), (2, 5/2), (5/2, 3), (3, 5/2)] : Ring).getLast?
    ∧ 3 ≤ ([((3 : ℚ), (5 : ℚ)/2), (5/2, 2), (2, 5/2), (5/2, 3), (3, 5/2)] : Ring).toFinset.card :=
  c3_contour_rings_closed (bufferGrid [0, 0, 0, 0, 1, 0, 0, 0, 0] 3 3) (1/2)
    (bufferGrid_domBounded [0, 0, 0, 0, 1, 0, 0, 0, 0] 3 3)
    [[(3, 5/2), (5/2, 2), (2, 5/2), (5/2, 3), (3, 5/2)]]
    (by decide) _ (by decide)

/-- C5 witness: a 2×2 grid of zeros against threshold 1. -/
theorem c5_uniform_grid_no_rings_witness :
    contour_rings (bufferGrid [0, 0, 0, 0] 2 2) 1 = .ok [] :=
  c5_uniform_grid_no_rings (bufferGrid [0, 0, 0, 0] 2 2) 1
    (Or.inl (by
      intro c v hv
      simp only [bufferGrid] at hv
      split at hv
      · cases hv
      · have hm := List.get?_mem hv
        simp at hm
        rw [hm]
        norm_num))

/-! ### Batch traversal lemmas (C7) -/

theorem except_bind_ok {ε α β : Type} {x : Except ε α} {f : α → Except ε β}
    {b : β} (h : x >>= f = .ok b) : ∃ a, x = .ok a ∧ f a = .ok b := by
  cases x with
  | error e => simp [bind, Except.bind] at h
  | ok a =>
    refine ⟨a, rfl, ?_⟩
    simpa [bind, Except.bind] using h

theorem except_bind_error {ε α β : Type} {x : Except ε α} {f : α → Except ε β}
    {e : ε} (h : x >>= f = .error e) :
    x = .error e ∨ ∃ a, x = .ok a ∧ f a = .error e := by
  cases x with
  | error e' =>
    left
    simpa [bind, Except.bind] using h
  | ok a =>
    right
    refine ⟨a, rfl, ?_⟩
    simpa [bind, Except.bind] using h

theorem line_threshold {b : ContourBuilderS} {g : GridQ} {t : ℚ}
    {st st' : IsoRingBuilderS} {l : LineT}
    (h : line b g t st = .ok (l, st')) : l.threshold = t := by
  simp only [line, bind, Except.bind] at h
  cases hc : compute g t st with
  | error e =>
    rw [hc] at h
    cases h
  | ok p =>
    rw [hc] at h
    obtain ⟨result, st1⟩ := p
    split at h
    next heq => cases heq
    next v heq =>
      cases heq
      split at h
      next => cases h
      next ls heq2 =>
        simp only [pure, Except.pure] at h
        cases h
        rfl

theorem contour_threshold {b : ContourBuilderS} {g : GridQ} {t : ℚ}
    {st st' : IsoRingBuilderS} {c : ContourT}
    (h : contour b g t st = .ok (c, st')) : c.threshold = t := by
  simp only [contour, bind, Except.bind] at h
  cases hc : compute g t st with
  | error e =>
    rw [hc] at h
    cases h
  | ok p =>
    rw [hc] at h
    obtain ⟨result, st1⟩ := p
    split at h
    next heq => cases heq
    next v heq =>
      cases heq
      split at h
      next => cases h
      next cls heq2 =>
        simp only [pure, Except.pure] at h
        cases h
        rfl

theorem isobandsRingStep_threshold {b : ContourBuilderS} {g : GridQ} {t : ℚ}
    {st st' : IsoRingBuilderS} {p : List Ring × ℚ}
    (h : isobandsRingStep b g t st = .ok (p, st')) : p.2 = t := by
  simp only [isobandsRingStep, bind, Except.bind] at h
  cases hc : compute g t st with
  | error e =>
    rw [hc] at h
    cases h
  | ok q =>
    rw [hc] at h
    obtain ⟨result, st1⟩ := q
    split at h
    next heq => cases heq
    next v heq =>
      cases heq
      split at h
      next => cases h
      next processed heq2 =>
        simp only [pure, Except.pure] at h
        cases h
        rfl

theorem linesAux_ok_thresholds {b : ContourBuilderS} {g : GridQ} :
    ∀ (ts : List ℚ) (st : IsoRingBuilderS) (res : List LineT),
      linesAux b g ts st = .ok res → res.map LineT.threshold = ts := by
  intro ts
  induction ts with
  | nil =>
    intro st res h
    cases h
    rfl
  | cons t ts ih =>
    intro st res h
    rw [linesAux] at h
    obtain ⟨⟨l, st'⟩, hl, h2⟩ := except_bind_ok h
    obtain ⟨rest, hrest, h3⟩ := except_bind_ok h2
    simp only [pure, Except.pure] at h3
    cases h3
    simp only [List.map_cons]
    rw [line_threshold hl, ih st' rest hrest]

theorem linesAux_error_failsFirst {b : ContourBuilderS} {g : GridQ} :
    ∀ (ts : List ℚ) (st : IsoRingBuilderS) (e : ErrorKind),
      linesAux b g ts st = .error e → FailsAtFirst (line b g) ts st e := by
  intro ts
  induction ts with
  | nil =>
    intro st e h
    cases h
  | cons t ts ih =>
    intro st e h
    rw [linesAux] at h
    rcases except_bind_error h with hl | ⟨⟨l, st'⟩, hl, h2⟩
    · exact Or.inl hl
    · rcases except_bind_error h2 with hr | ⟨rest, hrest, h3⟩
      · exact Or.inr ⟨l, st', hl, ih st' e hr⟩
      · simp [pure, Except.pure] at h3

theorem contoursAux_ok_thresholds {b : ContourBuilderS} {g : GridQ} :
    ∀ (ts : List ℚ) (st : IsoRingBuilderS) (res : List ContourT),
      contoursAux b g ts st = .ok res → res.map ContourT.threshold = ts := by
  intro ts
  induction ts with
  | nil =>
    intro st res h
    cases h
    rfl
  | cons t ts ih =>
    intro st res h
    rw [contoursAux] at h
    obtain ⟨⟨c, st'⟩, hl, h2⟩ := except_bind_ok h
    obtain ⟨rest, hrest, h3⟩ := except_bind_ok h2
    simp only [pure, Except.pure] at h3
    cases h3
    simp only [List.map_cons]
    rw [contour_threshold hl, ih st' rest hrest]

theorem contoursAux_error_failsFirst {b : ContourBuilderS} {g : GridQ} :
    ∀ (ts : List ℚ) (st : IsoRingBuilderS) (e : ErrorKind),
      contoursAux b g ts st = .error e → FailsAtFirst (contour b g) ts st e := by
  intro ts
  induction ts with
  | nil =>
    intro st e h
    cases h
  | cons t ts ih =>
    intro st e h
    rw [contoursAux] at h
    rcases except_bind_error h with hl | ⟨⟨c, st'⟩, hl, h2⟩
    · exact Or.inl hl
    · rcases except_bind_error h2 with hr | ⟨rest, hrest, h3⟩
      · exact Or.inr ⟨c, st', hl, ih st' e hr⟩
      · simp [pure, Except.pure] at h3

theorem isobandsRings_ok_thresholds {b : ContourBuilderS} {g : GridQ} :
    ∀ (ts : List ℚ) (st : IsoRingBuilderS) (rs : List (List Ring × ℚ))
      (st'' : IsoRingBuilderS),
      isobandsRings b g ts st = .ok (rs, st'') → rs.map Prod.snd = ts := by
  intro ts
  induction ts with
  | nil =>
    intro st rs st'' h
    cases h
    rfl
  | cons t ts ih =>
    intro st rs st'' h
    rw [isobandsRings] at h
    obtain ⟨⟨pr, st'⟩, hl, h2⟩ := except_bind_ok h
    obtain ⟨⟨rest, st2⟩, hrest, h3⟩ := except_bind_ok h2
    simp only [pure, Except.pure] at h3
    cases h3
    simp only [List.map_cons]
    rw [isobandsRingStep_threshold hl, ih st' rest _ hrest]

theorem isobandsRings_error_failsFirst {b : ContourBuilderS} {g : GridQ} :
    ∀ (ts : List ℚ) (st : IsoRingBuilderS) (e : ErrorKind),
      isobandsRings b g ts st = .error e →
        FailsAtFirst (isobandsRingStep b g) ts st e := by
  intro ts
  induction ts with
  | nil =>
    intro st e h
    cases h
  | cons t ts ih =>
    intro st e h
    rw [isobandsRings] at h
    rcases except_bind_error h with hl | ⟨⟨pr, st'⟩, hl, h2⟩
    · exact Or.inl hl
    · rcases except_bind_error h2 with hr | ⟨⟨rest, st2⟩, hrest, h3⟩
      · exact Or.inr ⟨pr, st', hl, ih st' e hr⟩
      · simp [pure, Except.pure] at h3

theorem zip_tail_snd {A B : Type} : ∀ (rs : List (A × B)),
    (rs.zip rs.tail).map (fun p => (p.1.2, p.2.2)) =
      (rs.map Prod.snd).zip ((rs.map Prod.snd).tail)
  | [] => rfl
  | [_] => rfl
  | a :: b :: rs => by
    have ih := zip_tail_snd (b :: rs)
    simp only [List.tail_cons, List.zip_cons_cons, List.map_cons] at ih ⊢
    exact congrArg _ ih

/-- C7: each of `lines`, `contours`, and `isobands` either succeeds on every
threshold — one result per threshold, in threshold order (one band per
consecutive threshold pair for `isobands`) — or short-circuits with the error
of the first failing threshold in threshold order, the `Err` case carrying no
partial results.  For `isobands` the error is either the too-few-thresholds
guard or the first failing threshold of its ring stage. -/
theorem c7_batch_first_error (b : ContourBuilderS) (g : GridQ) (ts : List ℚ) :
    (∀ res, lines b g ts = .ok res → res.map LineT.threshold = ts) ∧
    (∀ e, lines b g ts = .error e → FailsAtFirst (line b g) ts freshB e) ∧
    (∀ res, contours b g ts = .ok res → res.map ContourT.threshold = ts) ∧
    (∀ e, contours b g ts = .error e →
      FailsAtFirst (contour b g) ts freshB e) ∧
    (∀ res, isobands b g ts = .ok res →
      res.map (fun bd => (bd.min_v, bd.max_v)) = ts.zip ts.tail) ∧
    (∀ e, isobands b g ts = .error e →
      (ts.length < 2 ∧ e = .Unexpected) ∨
        FailsAtFirst (isobandsRingStep b g) ts freshB e) := by
  refine ⟨fun res h => linesAux_ok_thresholds ts freshB res h,
    fun e h => linesAux_error_failsFirst ts freshB e h,
    fun res h => contoursAux_ok_thresholds ts freshB res h,
    fun e h => contoursAux_error_failsFirst ts freshB e h, ?_, ?_⟩
  · intro res h
    rw [isobands] at h
    split at h
    · cases h
    obtain ⟨⟨rs, st⟩, hr, h2⟩ := except_bind_ok h
    simp only [pure, Except.pure, Except.ok.injEq] at h2
    have hts := isobandsRings_ok_thresholds ts freshB rs st hr
    calc res.map (fun bd => (bd.min_v, bd.max_v))
        = (rs.zip rs.tail).map (fun p => (p.1.2, p.2.2)) := by
          rw [← h2]
          simp only [List.map_map]
          rfl
      _ = (rs.map Prod.snd).zip ((rs.map Prod.snd).tail) := zip_tail_snd rs
      _ = ts.zip ts.tail := by rw [hts]
  · intro e h
    rw [isobands] at h
    split at h
    next hlt =>
      cases h
      exact Or.inl ⟨hlt, rfl⟩
    next hge =>
      rcases except_bind_error h with hr | ⟨⟨rs, st⟩, hr, h3⟩
      · exact Or.inr (isobandsRings_error_failsFirst ts freshB e hr)
      · simp [pure, Except.pure] at h3

/-- C7 witness: on an empty buffer grid with thresholds 1 and 2, `lines`
succeeds and the per-threshold results follow the threshold order. -/
theorem c7_batch_first_error_witness :
    lines (ContourBuilderS.new false) (bufferGrid [] 0 0) [1, 2] =
        .ok [⟨[], 1⟩, ⟨[], 2⟩] ∧
    ([⟨[], 1⟩, ⟨[], 2⟩] : List LineT).map LineT.threshold = [1, 2] :=
  ⟨by decide, (c7_batch_first_error (ContourBuilderS.new false)
      (bufferGrid [] 0 0) [1, 2]).1 [⟨[], 1⟩, ⟨[], 2⟩] (by decide)⟩

theorem mapM_except_mem {α β : Type} (f : α → Except ErrorKind β) :
    ∀ (l : List α) (l' : List β), l.mapM f = .ok l' →
      ∀ b ∈ l', ∃ a ∈ l, f a = .ok b
  | [], l', h => by
    simp only [List.mapM_nil, pure, Except.pure, Except.ok.injEq] at h
    subst h
    intro b hb
    cases hb
  | a :: l, l', h => by
    rw [List.mapM_cons] at h
    obtain ⟨b0, hb0, h2⟩ := except_bind_ok h
    obtain ⟨bs, hbs, h3⟩ := except_bind_ok h2
    simp only [pure, Except.pure, Except.ok.injEq] at h3
    subst h3
    intro b hb
    rcases List.mem_cons.mp hb with rfl | hb
    · exact ⟨a, List.mem_cons_self a l, hb0⟩
    · obtain ⟨a', ha', hfa'⟩ := mapM_except_mem f l bs hbs b hb
      exact ⟨a', List.mem_cons_of_mem a ha', hfa'⟩

theorem dedupQ_head? : ∀ (l : List Pt) (b : Pt), (dedupQ (b :: l)).head? = some b
  | [], _ => rfl
  | c :: l', b => by
    simp only [dedupQ]
    split
    next hbc =>
      rw [hbc]
      exact dedupQ_head? l' c
    next => rfl

theorem dedupQ_chain' :
    ∀ (l : List Pt), List.Chain' (fun u v => u ≠ v) (dedupQ l)
  | [] => List.chain'_nil
  | [a] => by simp [dedupQ]
  | a :: b :: l => by
    simp only [dedupQ]
    split
    next => exact dedupQ_chain' (b :: l)
    next hab =>
      rw [List.chain'_cons']
      refine ⟨?_, dedupQ_chain' (b :: l)⟩
      intro y hy
      rw [Option.mem_def, dedupQ_head? l b, Option.some.injEq] at hy
      subst hy
      exact hab

theorem isobandsRingStep_shape {b : ContourBuilderS} {g : GridQ} {t t' : ℚ}
    {st st' : IsoRingBuilderS} {kept : List Ring}
    (h : isobandsRingStep b g t st = .ok ((kept, t'), st')) :
    ∃ processed : List Ring,
      kept = processed.filter (fun r => 3 < r.length) ∧
      ∀ r ∈ processed, ∃ s : Ring,
        r = transformRing b (dedupQ s) ∧
          List.Chain' (fun u v => u ≠ v) (dedupQ s) := by
  rw [isobandsRingStep] at h
  obtain ⟨⟨rings, st1⟩, hc, h2⟩ := except_bind_ok h
  obtain ⟨processed, hm, h3⟩ := except_bind_ok h2
  simp only [pure, Except.pure, Except.ok.injEq, Prod.mk.injEq] at h3
  refine ⟨processed, h3.1.1.symm, ?_⟩
  intro r hr
  obtain ⟨a, _, hfa⟩ := mapM_except_mem _ rings processed hm r hr
  split at hfa
  · obtain ⟨s, _, h4⟩ := except_bind_ok hfa
    simp only [pure, Except.pure, Except.ok.injEq] at h4
    exact ⟨s, h4.symm, dedupQ_chain' s⟩
  · simp only [pure, Except.pure, Except.ok.injEq, bind, Except.bind] at hfa
    exact ⟨a, hfa.symm, dedupQ_chain' a⟩

/-- C9: in the per-threshold ring stage of `isobands`, every ring is passed
through `dedup` (so the processed ring is the affine transform of a ring with
no two consecutive equal points) after the optional smoothing, and the rings
kept for band assembly are exactly the processed rings longer than 3 points —
a processed ring with 3 or fewer points is silently discarded. -/
theorem c9_isobands_dedup_and_length_filter (b : ContourBuilderS) (g : GridQ) :
    ∀ (ts : List ℚ) (st st' : IsoRingBuilderS) (rs : List (List Ring × ℚ)),
      isobandsRings b g ts st = .ok (rs, st') →
      ∀ p ∈ rs, ∃ processed : List Ring,
        p.1 = processed.filter (fun r => 3 < r.length) ∧
        (∀ r ∈ p.1, r ∈ processed ∧ 3 < r.length) ∧
        ∀ r ∈ processed, ∃ s : Ring,
          r = transformRing b (dedupQ s) ∧
            List.Chain' (fun u v => u ≠ v) (dedupQ s) := by
  intro ts
  induction ts with
  | nil =>
    intro st st' rs h
    cases h
    intro p hp
    cases hp
  | cons t ts ih =>
    intro st st' rs h
    rw [isobandsRings] at h
    obtain ⟨⟨pr, st1⟩, hl, h2⟩ := except_bind_ok h
    obtain ⟨⟨rest, st2⟩, hrest, h3⟩ := except_bind_ok h2
    simp only [pure, Except.pure, Except.ok.injEq, Prod.mk.injEq] at h3
    obtain ⟨hcons, -⟩ := h3
    subst hcons
    intro p hp
    rcases List.mem_cons.mp hp with rfl | hp
    · obtain ⟨kept, t'⟩ := p
      obtain ⟨processed, hfil, hded⟩ := isobandsRingStep_shape hl
      refine ⟨processed, hfil, ?_, hded⟩
      intro r hr
      rw [hfil] at hr
      have hmf := List.mem_filter.mp hr
      exact ⟨hmf.1, by simpa using hmf.2⟩
    · exact ih st1 st2 rest hrest p hp

/-- C9 witness: the 3×3 hot-center grid between thresholds 1/2 and 3/2: the
first threshold keeps its one 5-point diamond ring, the second keeps none. -/
theorem c9_isobands_dedup_and_length_filter_witness :
    isobandsRings (ContourBuilderS.new false)
        (bufferGrid [0, 0, 0, 0, 1, 0, 0, 0, 0] 3 3) [1/2, 3/2] freshB =
      .ok ([([[(3, 5/2), (5/2, 2), (2, 5/2), (5/2, 3), (3, 5/2)]], 1/2),
            ([], 3/2)], ⟨[], [], [], 0, false⟩) ∧
    (∀ p ∈ ([([[((3 : ℚ), (5 : ℚ)/2), (5/2, 2), (2, 5/2), (5/2, 3), (3, 5/2)]],
              (1 : ℚ)/2), ([], 3/2)] : List (List Ring × ℚ)),
      ∃ processed : List Ring,
        p.1 = processed.filter (fun r => 3 < r.length) ∧
        (∀ r ∈ p.1, r ∈ processed ∧ 3 < r.length) ∧
        ∀ r ∈ processed, ∃ s : Ring,
          r = transformRing (ContourBuilderS.new false) (dedupQ s) ∧
            List.Chain' (fun u v => u ≠ v) (dedupQ s)) :=
  ⟨rfl,
    c9_isobands_dedup_and_length_filter (ContourBuilderS.new false)
      (bufferGrid [0, 0, 0, 0, 1, 0, 0, 0, 0] 3 3) [1/2, 3/2] freshB
      ⟨[], [], [], 0, false⟩
      [([[(3, 5/2), (5/2, 2), (2, 5/2), (5/2, 3), (3, 5/2)]], 1/2), ([], 3/2)]
      rfl⟩

theorem foldl_aInsert_lookup_notmem {A : Type} (cnt : ℕ × A → ℕ) :
    ∀ (xs : List (ℕ × A)) (init : List (ℕ × ℕ)) (k : ℕ),
      k ∉ xs.map Prod.fst →
      aLookup (xs.foldl (fun m q => aInsert m q.1 (cnt q)) init) k =
        aLookup init k
  | [], _, _, _ => rfl
  | x :: xs, init, k, hk => by
    simp only [List.map_cons, List.mem_cons, not_or] at hk
    rw [List.foldl_cons, foldl_aInsert_lookup_notmem cnt xs _ k hk.2,
      aLookup_aInsert, if_neg hk.1]

theorem foldl_aInsert_lookup {A : Type} (cnt : ℕ × A → ℕ) :
    ∀ (xs : List (ℕ × A)) (init : List (ℕ × ℕ)) (p : ℕ × A),
      p ∈ xs → (xs.map Prod.fst).Nodup →
      aLookup (xs.foldl (fun m q => aInsert m q.1 (cnt q)) init) p.1 =
        some (cnt p)
  | [], _, p, hp, _ => absurd hp (List.not_mem_nil p)
  | x :: xs, init, p, hp, hnd => by
    simp only [List.map_cons, List.nodup_cons] at hnd
    rw [List.foldl_cons]
    rcases List.mem_cons.mp hp with rfl | hp
    · rw [foldl_aInsert_lookup_notmem cnt xs _ p.1 hnd.1,
        aLookup_aInsert, if_pos rfl]
    · exact foldl_aInsert_lookup cnt xs _ p hp hnd.2

theorem foldl_partition_append {A P R : Type} (c : A → Prop) [DecidablePred c]
    (f : A → P) (g : A → R) :
    ∀ (xs : List A) (acc : List P × List R),
      xs.foldl (fun acc p => if c p then (acc.1 ++ [f p], acc.2)
          else (acc.1, acc.2 ++ [g p])) acc =
      (acc.1 ++ (xs.filter (fun a => decide (c a))).map f,
       acc.2 ++ (xs.filter (fun a => decide (¬ c a))).map g)
  | [], acc => by simp
  | x :: xs, acc => by
    rw [List.foldl_cons]
    by_cases hc : c x
    · rw [if_pos hc, foldl_partition_append c f g xs _]
      simp [List.filter_cons, hc]
    · rw [if_neg hc, foldl_partition_append c f g xs _]
      simp [List.filter_cons, hc]

theorem assembleBand_eq_spec (rings : List Ring) :
    assembleBand rings = specAssemble rings := by
  simp only [assembleBand, specAssemble, bandKey]
  set S := (rings.map fun ring => (ring, area ring)).insertionSort
      (fun a b => (Rat.floor |a.2|).toNat ≤ (Rat.floor |b.2|).toNat) with hS
  have hkeys : (S.enum.map Prod.fst).Nodup := by
    rw [List.enum_map_fst]
    exact List.nodup_range _
  have hsplit : S.enum.foldl (fun (acc : List PolygonQ × List Ring) p =>
      if (aLookup (S.enum.foldl (fun m p => aInsert m p.1
            ((S.enum.filter
              (fun q => q.1 ≠ p.1 ∧ containsR q.2.1 p.2.1 ≠ -1)).length)) [])
          p.1).getD 0 % 2 = 0 then
        (acc.1 ++ [PolygonQ.mk p.2.1 []], acc.2)
      else (acc.1, acc.2 ++ [p.2.1])) ([], []) =
      S.enum.foldl (fun (acc : List PolygonQ × List Ring) p =>
      if ((S.enum.filter
            (fun q => q.1 ≠ p.1 ∧ containsR q.2.1 p.2.1 ≠ -1)).length) % 2 = 0
      then (acc.1 ++ [PolygonQ.mk p.2.1 []], acc.2)
      else (acc.1, acc.2 ++ [p.2.1])) ([], []) := by
    apply List.foldl_ext
    intro acc p hp
    have hl := foldl_aInsert_lookup
      (fun p => ((S.enum.filter
        (fun q => q.1 ≠ p.1 ∧ containsR q.2.1 p.2.1 ≠ -1)).length))
      S.enum [] p hp hkeys
    simp only [hl, Option.getD_some]
  rw [hsplit, foldl_partition_append
    (fun p => ((S.enum.filter
      (fun q => q.1 ≠ p.1 ∧ containsR q.2.1 p.2.1 ≠ -1)).length) % 2 = 0)
    (fun p => PolygonQ.mk p.2.1 []) (fun p => p.2.1) S.enum ([], [])]
  simp only [List.nil_append]

/-- C4: for each consecutive threshold pair, `isobands` concatenates the lower
and upper threshold's ring sets and assembles the band exactly as described:
each ring is paired with its signed area, the rings are sorted ascending by
the integer-truncated absolute area, each ring is classified by the parity of
the number of other rings in the set that contain it — an even count makes a
top-level exterior polygon, an odd count a hole attached to the first
containing exterior in sorted order — and the exterior polygon list is
reversed before the band is returned (`specAssemble` transcribes this
description; the band stage of `isobands` coincides with it). -/
theorem c4_isobands_band_assembly (b : ContourBuilderS) (g : GridQ)
    (ts : List ℚ) (bands : List BandQ)
    (h : isobands b g ts = .ok bands) :
    ∃ (rs : List (List Ring × ℚ)) (st' : IsoRingBuilderS),
      isobandsRings b g ts freshB = .ok (rs, st') ∧
      bands = (rs.zip rs.tail).map
        (fun p => BandQ.mk (specAssemble (p.1.1 ++ p.2.1)) p.1.2 p.2.2) := by
  rw [isobands] at h
  split at h
  · cases h
  obtain ⟨⟨rs, st'⟩, hr, h2⟩ := except_bind_ok h
  simp only [pure, Except.pure, Except.ok.injEq] at h2
  refine ⟨rs, st', hr, ?_⟩
  rw [← h2, show assembleBand = specAssemble from funext assembleBand_eq_spec]
  simp only [List.map_map]
  rfl

/-- C4 witness: the 3×3 hot-center grid between thresholds 1/2 and 3/2 yields
one band whose single exterior polygon is the diamond ring, assembled as the
claim describes. -/
theorem c4_isobands_band_assembly_witness :
    ∃ (rs : List (List Ring × ℚ)) (st' : IsoRingBuilderS),
      isobandsRings (ContourBuilderS.new false)
          (bufferGrid [0, 0, 0, 0, 1, 0, 0, 0, 0] 3 3) [1/2, 3/2] freshB =
        .ok (rs, st') ∧
      [BandQ.mk [PolygonQ.mk
          [(3, 5/2), (5/2, 2), (2, 5/2), (5/2, 3), (3, 5/2)] []] (1/2) (3/2)] =
        (rs.zip rs.tail).map
          (fun p => BandQ.mk (specAssemble (p.1.1 ++ p.2.1)) p.1.2 p.2.2) :=
  c4_isobands_band_assembly (ContourBuilderS.new false)
    (bufferGrid [0, 0, 0, 0, 1, 0, 0, 0, 0] 3 3) [1/2, 3/2]
    [BandQ.mk [PolygonQ.mk
        [(3, 5/2), (5/2, 2), (2, 5/2), (5/2, 3), (3, 5/2)] []] (1/2) (3/2)]
    rfl

theorem attachOne_pres {h : Ring} :
    ∀ (polys : List PolygonQ) (hole : Ring),
      (∀ q ∈ polys,
        containsR q.exterior h = -1 ∧ q.exterior ≠ h ∧ h ∉ q.interiors) →
      ∀ q ∈ attachOne polys hole,
        containsR q.exterior h = -1 ∧ q.exterior ≠ h ∧ h ∉ q.interiors
  | [], _, _ => by
    intro q hq
    cases hq
  | p :: rest, hole, hP => by
    intro q hq
    rw [attachOne] at hq
    split at hq
    next hc =>
      rcases List.mem_cons.mp hq with rfl | hq
      · have hp := hP p (List.mem_cons_self p rest)
        refine ⟨hp.1, hp.2.1, ?_⟩
        intro hm
        rcases List.mem_append.mp hm with hm' | hm'
        · exact hp.2.2 hm'
        · rw [List.mem_singleton] at hm'
          subst hm'
          exact hc hp.1
      · exact hP q (List.mem_cons_of_mem p hq)
    next hc =>
      rcases List.mem_cons.mp hq with rfl | hq
      · exact hP q (List.mem_cons_self q rest)
      · exact attachOne_pres rest hole
          (fun r hr => hP r (List.mem_cons_of_mem p hr)) q hq

/-- C10: in the hole-assignment stage shared by `contour` and `isobands`, a
ring classified as a hole that is contained in no exterior polygon of the
result set is silently dropped: it is attached to no polygon's interiors and
(not being any exterior) appears nowhere in the returned geometry. -/
theorem c10_uncontained_hole_dropped (polys : List PolygonQ)
    (holes : List Ring) (h : Ring) (hmem : h ∈ holes)
    (hnc : ∀ q ∈ polys, containsR q.exterior h = -1)
    (hnot : ∀ q ∈ polys, q.exterior ≠ h ∧ h ∉ q.interiors) :
    ∀ q ∈ attachHoles polys holes, q.exterior ≠ h ∧ h ∉ q.interiors := by
  have key : ∀ (hs : List Ring) (ps : List PolygonQ),
      (∀ q ∈ ps,
        containsR q.exterior h = -1 ∧ q.exterior ≠ h ∧ h ∉ q.interiors) →
      ∀ q ∈ hs.foldl attachOne ps,
        containsR q.exterior h = -1 ∧ q.exterior ≠ h ∧ h ∉ q.interiors := by
    intro hs
    induction hs with
    | nil => intro ps hP; exact hP
    | cons hole hs ih =>
      intro ps hP
      rw [List.foldl_cons]
      exact ih _ (attachOne_pres ps hole hP)
  intro q hq
  exact ((key holes polys (fun r hr => ⟨hnc r hr, hnot r hr⟩)) q hq).2

/-- C10 witness: a far-away square hole contained in no exterior of a
one-polygon result set is attached nowhere: the surviving polygon neither has
it as exterior nor among its interiors. -/
theorem c10_uncontained_hole_dropped_witness :
    (PolygonQ.mk [(0, 0), (1, 0), (1, 1), (0, 1), (0, 0)] []).exterior ≠
        [(5, 5), (6, 5), (6, 6), (5, 6), (5, 5)] ∧
      ([((5 : ℚ), (5 : ℚ)), (6, 5), (6, 6), (5, 6), (5, 5)] : Ring) ∉
        (PolygonQ.mk [(0, 0), (1, 0), (1, 1), (0, 1), (0, 0)] []).interiors :=
  c10_uncontained_hole_dropped
    [PolygonQ.mk [(0, 0), (1, 0), (1, 1), (0, 1), (0, 0)] []]
    [[(5, 5), (6, 5), (6, 6), (5, 6), (5, 5)]]
    [(5, 5), (6, 5), (6, 6), (5, 6), (5, 5)]
    (by decide) (by decide) (by decide)
    (PolygonQ.mk [(0, 0), (1, 0), (1, 1), (0, 1), (0, 0)] []) (by decide)

end CR
